import Mathlib

/-!
Verification of the reverse user-key iterator of the Hummock storage engine
(`src/rust/storage/src/hummock/iterator/reverse_user_key.rs`).

The iterator layered structures below are a shallow embedding of the Rust
code.  The key codec (`key_with_epoch`, `get_epoch`, `user_key`) and the
merged source iterator (`ReverseSortedIterator`) are not part of the
supplied sources; they are modelled from the specification (§3, §4.1, §4.2,
§6), and each such definition carries a doc comment saying so.
-/

namespace Hummock

/-- Lexicographic strict order on byte strings, as Rust's `&[u8]` comparison
(`key < begin_key.as_slice()` etc.): a proper prefix is smaller. -/
def ltBytes : List Nat → List Nat → Bool
  | _, [] => false
  | [], _ :: _ => true
  | a :: as, b :: bs => if a < b then true else if b < a then false else ltBytes as bs

/-- Lexicographic `≤` on byte strings, `a ≤ b ↔ ¬ b < a`. -/
def leBytes (a b : List Nat) : Bool := !(ltBytes b a)

/-- The values stored against internal keys: a `Put` with payload, or a
`Delete` tombstone (`HummockValue` in `value.rs`, used by the iterator). -/
inductive HummockValue where
  | Put (v : List Nat)
  | Delete
  deriving DecidableEq, Repr

/-- Modelled from the spec: an internal key is a user key together with an
epoch, encoded as `UK ‖ encode(epoch)` where larger epochs sort before
smaller ones for equal user keys (§3).  The encoding is order-isomorphic to
the pair, so the pair is used directly; `key_with_epoch uk e` is `⟨uk, e⟩`,
`user_key` is `.uk` and `get_epoch` is `.epoch`. -/
structure IKey where
  uk : List Nat
  epoch : Nat
  deriving DecidableEq, Repr

/-- Strict order on internal keys induced by the spec's encoding (§3, §4.1):
for user keys `a < b` every IK of `a` sorts before every IK of `b`, and for
equal user keys larger epochs sort first. -/
def ikLt (a b : IKey) : Bool :=
  ltBytes a.uk b.uk || (a.uk == b.uk && decide (b.epoch < a.epoch))

def ikLe (a b : IKey) : Bool := !(ikLt b a)

/-- `std::ops::Bound<Vec<u8>>`, the two ends of `key_range`. -/
inductive KeyBound where
  | Included (k : List Nat)
  | Excluded (k : List Nat)
  | Unbounded
  deriving DecidableEq, Repr

/-- `ReverseUserKeyIterator::out_of_range` (reads only `key_range.0`): for
`Included lo` a key is out of range when `key < lo`, for `Excluded lo` when
`key <= lo`, and never for `Unbounded`. -/
def outOfRange (b : KeyBound) (key : List Nat) : Bool :=
  match b with
  | .Included lo => ltBytes key lo
  | .Excluded lo => leBytes key lo
  | .Unbounded => false

/-- Modelled from the spec: the reverse merged source iterator
(`ReverseSortedIterator`, §4.2/§6).  It exposes a single globally sorted
stream of internal key/value records in descending internal-key order; it is
modelled as the descending list of records together with a cursor.  `seek`
positions the cursor at the first element `≤` the target, `rewind` at the
stream's maximum, `next` advances by one, and the heap is built empty at
construction so the iterator is invalid until the first `rewind`/`seek`. -/
structure ReverseSortedIterator where
  entries : List (IKey × HummockValue)
  pos : Nat
  deriving DecidableEq, Repr

namespace ReverseSortedIterator

def is_valid (it : ReverseSortedIterator) : Bool := it.pos < it.entries.length

def key (it : ReverseSortedIterator) : IKey :=
  (it.entries.getD it.pos (⟨[], 0⟩, .Delete)).1

def value (it : ReverseSortedIterator) : HummockValue :=
  (it.entries.getD it.pos (⟨[], 0⟩, .Delete)).2

def next (it : ReverseSortedIterator) : ReverseSortedIterator :=
  ⟨it.entries, it.pos + 1⟩

def rewind (it : ReverseSortedIterator) : ReverseSortedIterator :=
  ⟨it.entries, 0⟩

/-- Modelled from the spec (§6): reverse `seek` positions at the first
internal key `≤` the target. -/
def seek (it : ReverseSortedIterator) (target : IKey) : ReverseSortedIterator :=
  ⟨it.entries, it.entries.findIdx (fun e => ikLe e.1 target)⟩

/-- Modelled from the spec (§4.2): the merged iterator is built with an empty
heap, hence invalid until `rewind`/`seek`. -/
def new (entries : List (IKey × HummockValue)) : ReverseSortedIterator :=
  ⟨entries, entries.length⟩

end ReverseSortedIterator

/-- `ReverseUserKeyIterator`: the reverse user-key iterator of
`reverse_user_key.rs`, field for field. -/
structure ReverseUserKeyIterator where
  iterator : ReverseSortedIterator
  just_met_new_key : Bool
  last_key : List Nat
  last_val : List Nat
  last_delete : Bool
  out_of_range : Bool
  key_range : KeyBound × KeyBound
  read_epoch : Nat
  deriving DecidableEq, Repr

namespace ReverseUserKeyIterator

/-- `ReverseUserKeyIterator::new_with_epoch`. -/
def new_with_epoch (iterator : ReverseSortedIterator) (key_range : KeyBound × KeyBound)
    (read_epoch : Nat) : ReverseUserKeyIterator :=
  { iterator := iterator
    out_of_range := false
    key_range := key_range
    just_met_new_key := false
    last_key := []
    last_val := []
    last_delete := true
    read_epoch := read_epoch }

/-- `Epoch::MAX` (u64). -/
def epochMax : Nat := 2 ^ 64 - 1

/-- `ReverseUserKeyIterator::new` (maximum epoch). -/
def new (iterator : ReverseSortedIterator) (key_range : KeyBound × KeyBound) :
    ReverseUserKeyIterator :=
  new_with_epoch iterator key_range epochMax

/-- `ReverseUserKeyIterator::reset`: clears `last_key`, `just_met_new_key`,
`last_delete`, `out_of_range` (but not `last_val`). -/
def reset (s : ReverseUserKeyIterator) : ReverseUserKeyIterator :=
  { s with last_key := [], just_met_new_key := false, last_delete := true,
           out_of_range := false }

/-- The `match self.iterator.value()` step of `next`: a `Put` overwrites
`last_val` and clears `last_delete`, a `Delete` sets `last_delete` (and
leaves `last_val` alone). -/
def applyValue (s : ReverseUserKeyIterator) : ReverseUserKeyIterator :=
  { s with
    last_val := match s.iterator.value with
      | .Put v => v
      | .Delete => s.last_val
    last_delete := match s.iterator.value with
      | .Put _ => false
      | .Delete => true }

/-- `self.iterator.next().await?` at the end of the loop body. -/
def advance (s : ReverseUserKeyIterator) : ReverseUserKeyIterator :=
  { s with iterator := ⟨s.iterator.entries, s.iterator.pos + 1⟩ }

/-- Remaining-records measure: the number of records the source can still
deliver, which bounds the iterations of the `next` loop. -/
def msr (s : ReverseUserKeyIterator) : Nat :=
  s.iterator.entries.length - s.iterator.pos

/-- The body of the `while self.iterator.is_valid()` loop of
`ReverseUserKeyIterator::next` (lines 111–160 of `reverse_user_key.rs`),
with an explicit fuel so that the recursion is structural (each iteration
advances the cursor, so `msr` fuel suffices — see `nextLoop`):
records above `read_epoch` are skipped; a visible record is either the first
record of a freshly entered group (`just_met_new_key`), the first record of a
new group closing the previous one (cases 2a/2b), or one more version of the
current group (case 1); `break` on an out-of-range adopted key, `return` when
the previous group resolved to a live `Put`. -/
def nextLoopF : Nat → ReverseUserKeyIterator → ReverseUserKeyIterator
  | 0, s => s
  | fuel + 1, s =>
    if s.iterator.pos < s.iterator.entries.length then
      let fullKey := s.iterator.key
      if fullKey.epoch ≤ s.read_epoch then
        if s.just_met_new_key then
          let s1 := { s with last_key := fullKey.uk, just_met_new_key := false }
          if outOfRange s1.key_range.1 s1.last_key then { s1 with out_of_range := true }
          else nextLoopF fuel (advance (applyValue s1))
        else if s.last_key ≠ fullKey.uk then
          if s.last_delete = false then { s with just_met_new_key := true }
          else
            let s1 := { s with last_key := fullKey.uk }
            if outOfRange s1.key_range.1 s1.last_key then { s1 with out_of_range := true }
            else nextLoopF fuel (advance (applyValue s1))
        else nextLoopF fuel (advance (applyValue s))
      else nextLoopF fuel (advance s)
    else s

/-- The `while` loop itself: run the body with exactly enough fuel.  The
loop advances the cursor on every iteration that continues, so `msr s`
iterations always reach a `return`/`break`/exhaustion. -/
def nextLoop (s : ReverseUserKeyIterator) : ReverseUserKeyIterator :=
  nextLoopF (msr s) s

/-- `ReverseUserKeyIterator::next`.  In the model the source never raises an
error, so the `HummockResult` wrapper is dropped: `next` always corresponds
to the `Ok(())` return. -/
def next (s : ReverseUserKeyIterator) : ReverseUserKeyIterator :=
  if s.iterator.is_valid then nextLoop s
  else { s with last_delete := true }

/-- `ReverseUserKeyIterator::is_valid`:
`(iterator.is_valid() || !last_delete) && !out_of_range`. -/
def is_valid (s : ReverseUserKeyIterator) : Bool :=
  (s.iterator.is_valid || !s.last_delete) && !s.out_of_range

/-- `ReverseUserKeyIterator::key` (precondition `is_valid`, enforced in Rust
by an assertion). -/
def key (s : ReverseUserKeyIterator) : List Nat := s.last_key

/-- `ReverseUserKeyIterator::value` (precondition `is_valid`). -/
def value (s : ReverseUserKeyIterator) : List Nat := s.last_val

/-- `ReverseUserKeyIterator::rewind`.  The `Excluded` upper bound hits
`unimplemented!` in the Rust code; that panic is modelled as `none`. -/
def rewind (s : ReverseUserKeyIterator) : Option ReverseUserKeyIterator :=
  match s.key_range.2 with
  | .Included endKey =>
      some (next (reset { s with iterator := s.iterator.seek ⟨endKey, 0⟩ }))
  | .Excluded _ => none
  | .Unbounded =>
      some (next (reset { s with iterator := s.iterator.rewind }))

/-- `ReverseUserKeyIterator::seek`: the target is clamped to the `Included`
upper bound, then the source is sought to `key_with_epoch(clamped, 0)`;
`Excluded` upper bound hits `unimplemented!`, modelled as `none`. -/
def seek (s : ReverseUserKeyIterator) (user_key : List Nat) : Option ReverseUserKeyIterator :=
  match s.key_range.2 with
  | .Included endKey =>
      let uk := if ltBytes endKey user_key then endKey else user_key
      some (next (reset { s with iterator := s.iterator.seek ⟨uk, 0⟩ }))
  | .Excluded _ => none
  | .Unbounded =>
      some (next (reset { s with iterator := s.iterator.seek ⟨user_key, 0⟩ }))

end ReverseUserKeyIterator

open ReverseUserKeyIterator

/-- Convenience constructor: a reverse user-key iterator over the given
descending stream, as produced by `ReverseSortedIterator::new` +
`ReverseUserKeyIterator::new_with_epoch`. -/
def mkIter (entries : List (IKey × HummockValue)) (key_range : KeyBound × KeyBound)
    (read_epoch : Nat) : ReverseUserKeyIterator :=
  new_with_epoch (ReverseSortedIterator.new entries) key_range read_epoch

/-- The emission sequence of a run: while `is_valid()`, record
`(key(), value())` and call `next()`; `fuel` bounds the number of steps. -/
def emitsF : Nat → ReverseUserKeyIterator → List (List Nat × List Nat)
  | 0, _ => []
  | n + 1, s => if s.is_valid then (s.key, s.value) :: emitsF n (next s) else []

/-- The user keys returned by `key()` over a run. -/
def runKeys (fuel : Nat) (s : ReverseUserKeyIterator) : List (List Nat) :=
  (emitsF fuel s).map Prod.fst

/-- The records the source will still deliver (from the cursor on). -/
def rem (s : ReverseUserKeyIterator) : List (IKey × HummockValue) :=
  s.iterator.entries.drop s.iterator.pos

/-- The records the source will still deliver that are visible at the
snapshot (`epoch <= read_epoch`). -/
def vrem (s : ReverseUserKeyIterator) : List (IKey × HummockValue) :=
  (rem s).filter (fun e => e.1.epoch ≤ s.read_epoch)

/-- Sequential application of a group's values, oldest to newest, onto a
`(last_delete, last_val)` pair — the reference for repeated case-1 steps. -/
def applyList : Bool → List Nat → List (IKey × HummockValue) → Bool × List Nat
  | ld, lv, [] => (ld, lv)
  | _, _, (_, .Put v) :: rest => applyList false v rest
  | _, lv, (_, .Delete) :: rest => applyList true lv rest

/-- Reference scan over a visible descending record stream: resolve each
user-key group to its last (newest) value, emit live `Put`s, and stop at the
first group whose key violates the lower bound. -/
def refEmitB (lo : KeyBound) : List (IKey × HummockValue) → List (List Nat × List Nat)
  | [] => []
  | e :: rest =>
      if outOfRange lo e.1.uk then []
      else
        let q := applyList true [] (e :: rest.takeWhile (fun x => x.1.uk == e.1.uk))
        (if q.1 then [] else [(e.1.uk, q.2)]) ++
          refEmitB lo (rest.dropWhile (fun x => x.1.uk == e.1.uk))
termination_by l => l.length
decreasing_by
  simp only [List.length_cons]
  exact Nat.lt_succ_of_le (List.Sublist.length_le (List.dropWhile_sublist _))

/-- Reference scan including the degenerate empty-user-key head group, which
the iterator's `last_key` sentinel folds into the initial state without a
bounds check. -/
def refEmitE (lo : KeyBound) (l : List (IKey × HummockValue)) : List (List Nat × List Nat) :=
  match l with
  | [] => []
  | e :: _ =>
      if e.1.uk = [] then
        let q := applyList true [] l
        if q.1 then [] else [([], q.2)]
      else refEmitB lo l

/-- The newest version of user key `k` whose epoch is `≤ read_epoch`
(epoch-argmax over the visible versions of `k`), the spec's ground truth for
what a scan resolves a group to. -/
def newestVisible (entries : List (IKey × HummockValue)) (k : List Nat) (re : Nat) :
    Option (IKey × HummockValue) :=
  (entries.filter (fun e => e.1.uk == k && decide (e.1.epoch ≤ re))).foldl
    (fun acc e =>
      match acc with
      | none => some e
      | some a => if a.1.epoch < e.1.epoch then some e else acc)
    none

/-- Ground truth for emission: the payload of the newest visible version of
`k` when that version is a `Put`, and `none` otherwise. -/
def newestVisiblePut (entries : List (IKey × HummockValue)) (k : List Nat) (re : Nat) :
    Option (List Nat) :=
  match newestVisible entries k re with
  | some (_, .Put v) => some v
  | _ => none

/-- Descending sortedness of the merged stream (strictly descending internal
keys), the source-iterator contract of §3/§4.2. -/
def sortedDesc (l : List (IKey × HummockValue)) : Prop :=
  l.Pairwise (fun a b => ikLt b.1 a.1 = true)

instance sortedDesc_decidable (l : List (IKey × HummockValue)) :
    Decidable (sortedDesc l) :=
  inferInstanceAs (Decidable (l.Pairwise _))

/-- All user keys in the stream are nonempty byte strings. -/
def nonemptyUks (l : List (IKey × HummockValue)) : Prop :=
  ∀ e ∈ l, e.1.uk ≠ []

instance nonemptyUks_decidable (l : List (IKey × HummockValue)) :
    Decidable (nonemptyUks l) :=
  inferInstanceAs (Decidable (∀ e ∈ l, e.1.uk ≠ []))

/-- Whether a user key respects the upper bound of the range. -/
def inUpper (b : KeyBound) (k : List Nat) : Prop :=
  match b with
  | .Included hi => leBytes k hi = true
  | .Excluded hi => ltBytes k hi = true
  | .Unbounded => True

/-- The current record of the source cursor. -/
def curE (s : ReverseUserKeyIterator) : IKey × HummockValue :=
  s.iterator.entries.getD s.iterator.pos (⟨[], 0⟩, .Delete)

/-- The records the source cursor has already moved past. -/
def passed (s : ReverseUserKeyIterator) : List (IKey × HummockValue) :=
  s.iterator.entries.take s.iterator.pos

/-- Every visible record already passed has a user key `≥ last_key`: the
loop only ever adopts `last_key` from the current record, and the stream is
descending. -/
def PV (s : ReverseUserKeyIterator) : Prop :=
  ∀ e ∈ passed s, e.1.epoch ≤ s.read_epoch → leBytes s.last_key e.1.uk = true

/-- All user keys in a record list are `≤ k`. -/
def AllLeK (l : List (IKey × HummockValue)) (k : List Nat) : Prop :=
  ∀ e ∈ l, leBytes e.1.uk k = true

/-- The reachability invariant of the reverse user-key iterator: `PV`, plus
the shape of `just_met_new_key` states (source valid, current record
visible, its user key strictly below `last_key`, previous group live), plus
`last_key` bounding the remaining stream while a group is being resolved. -/
def Rinv (s : ReverseUserKeyIterator) : Prop :=
  PV s ∧
  (s.just_met_new_key = true →
    s.iterator.pos < s.iterator.entries.length ∧
    s.iterator.key.epoch ≤ s.read_epoch ∧
    ltBytes s.iterator.key.uk s.last_key = true ∧
    s.last_delete = false) ∧
  (s.just_met_new_key = false → s.last_delete = false → AllLeK (rem s) s.last_key)

/-- A scan is started either by `rewind` (`t = none`) or by `seek u`
(`t = some u`). -/
def scanStart (it : ReverseUserKeyIterator) (t : Option (List Nat)) :
    Option ReverseUserKeyIterator :=
  match t with
  | none => rewind it
  | some u => seek it u

/-- User keys are non-increasing along a descending stream. -/
def ukSorted (l : List (IKey × HummockValue)) : Prop :=
  l.Pairwise (fun a b => leBytes b.1.uk a.1.uk = true)

/-- Resolution of user key `k`'s group in a stream: fold its records
(oldest last in scan order — here the stream is descending, so the group's
records are newest-last after filtering? no: the stream is newest-first per
group? see `sortedDesc`) through `applyList` from a tombstone seed. -/
def groupRes (k : List Nat) (l : List (IKey × HummockValue)) : Bool × List Nat :=
  applyList true [] (l.filter (fun x => x.1.uk == k))

/-- The records of a stream visible at snapshot `re`. -/
def visibles (re : Nat) (l : List (IKey × HummockValue)) : List (IKey × HummockValue) :=
  l.filter (fun e => e.1.epoch ≤ re)

/-- The tail of the reference scan, entered while a group (`lk`) is still
being resolved with running state `(ld, lv)`: finish the group, emit it if
it resolved live, then scan the rest. -/
def groupCont (lo : KeyBound) (lk : List Nat) (ld : Bool) (lv : List Nat)
    (l : List (IKey × HummockValue)) : List (List Nat × List Nat) :=
  (if (applyList ld lv (l.takeWhile (fun x => x.1.uk == lk))).1 then []
   else [(lk, (applyList ld lv (l.takeWhile (fun x => x.1.uk == lk))).2)]) ++
    refEmitB lo (l.dropWhile (fun x => x.1.uk == lk))

/-- Everything a run emits from state `r` on: `r`'s own record if `r` is
valid, then the reference scan of the records still visible ahead of the
cursor. -/
def outFrom (r : ReverseUserKeyIterator) : List (List Nat × List Nat) :=
  if is_valid r then (r.last_key, r.last_val) :: refEmitB r.key_range.1 (vrem r) else []

/-- The effective upper limit a scan start imposes on emitted user keys:
`rewind` uses the `Included` bound, `seek u` uses `u` clamped to it. -/
def startBound (upper : KeyBound) (t : Option (List Nat)) : Option (List Nat) :=
  match t, upper with
  | none, .Included hi => some hi
  | none, _ => none
  | some u, .Included hi => some (if ltBytes hi u then hi else u)
  | some u, .Excluded _ => some u
  | some u, .Unbounded => some u

theorem ltBytes_irrefl (a : List Nat) : ltBytes a a = false := by
  induction a with
  | nil => rfl
  | cons x xs ih => simp [ltBytes, ih]

theorem leBytes_refl (a : List Nat) : leBytes a a = true := by
  simp [leBytes, ltBytes_irrefl]

theorem leBytes_nil (a : List Nat) : leBytes [] a = true := by
  cases a <;> rfl

theorem ltBytes_asymm {a b : List Nat} (h : ltBytes a b = true) : ltBytes b a = false := by
  induction a generalizing b with
  | nil =>
    cases b with
    | nil => simp [ltBytes] at h
    | cons y ys => rfl
  | cons x xs ih =>
    cases b with
    | nil => simp [ltBytes] at h
    | cons y ys =>
      simp only [ltBytes] at h ⊢
      by_cases hxy : x < y
      · simp [hxy, Nat.lt_asymm hxy]
      · by_cases hyx : y < x
        · simp [hxy, hyx] at h
        · simp only [hxy, hyx, if_false] at h
          simp [hxy, hyx, ih h]

theorem ltBytes_antisymm_eq {a b : List Nat} (hab : ltBytes a b = false)
    (hba : ltBytes b a = false) : a = b := by
  induction a generalizing b with
  | nil =>
    cases b with
    | nil => rfl
    | cons y ys => simp [ltBytes] at hab
  | cons x xs ih =>
    cases b with
    | nil => simp [ltBytes] at hba
    | cons y ys =>
      simp only [ltBytes] at hab hba
      by_cases hxy : x < y
      · simp [hxy] at hab
      · by_cases hyx : y < x
        · simp [hxy, hyx] at hba
        · simp only [hxy, hyx, if_false] at hab hba
          have : x = y := by omega
          rw [this, ih hab hba]

theorem ltBytes_trans {a b c : List Nat} (hab : ltBytes a b = true)
    (hbc : ltBytes b c = true) : ltBytes a c = true := by
  induction a generalizing b c with
  | nil =>
    cases c with
    | nil =>
      cases b with
      | nil => simp [ltBytes] at hab
      | cons y ys => simp [ltBytes] at hbc
    | cons z zs => rfl
  | cons x xs ih =>
    cases b with
    | nil => simp [ltBytes] at hab
    | cons y ys =>
      cases c with
      | nil => simp [ltBytes] at hbc
      | cons z zs =>
        simp only [ltBytes] at hab hbc ⊢
        by_cases hxy : x < y
        · by_cases hyz : y < z
          · have : x < z := Nat.lt_trans hxy hyz
            simp [this]
          · by_cases hzy : z < y
            · simp [hxy, hyz, hzy] at hbc
            · have hyz' : y = z := by omega
              simp [hxy, ← hyz']
        · by_cases hyx : y < x
          · simp [hxy, hyx] at hab
          · have hxy' : x = y := by omega
            simp only [hxy, hyx, if_false] at hab
            subst hxy'
            by_cases hyz : x < z
            · simp [hyz]
            · by_cases hzy : z < x
              · simp [hyz, hzy] at hbc
              · simp only [hyz, hzy, if_false] at hbc
                simp [hyz, hzy, ih hab hbc]

theorem ltBytes_of_leBytes_of_ne {a b : List Nat} (h : leBytes a b = true)
    (hne : a ≠ b) : ltBytes a b = true := by
  simp only [leBytes, Bool.not_eq_true'] at h
  by_cases hab : ltBytes a b = true
  · exact hab
  · exact absurd (ltBytes_antisymm_eq (Bool.not_eq_true _ ▸ hab) h) hne

theorem leBytes_of_ltBytes {a b : List Nat} (h : ltBytes a b = true) :
    leBytes a b = true := by
  simp [leBytes, ltBytes_asymm h]

theorem leBytes_trans {a b c : List Nat} (hab : leBytes a b = true)
    (hbc : leBytes b c = true) : leBytes a c = true := by
  simp only [leBytes, Bool.not_eq_true'] at hab hbc ⊢
  by_cases hca : ltBytes c a = true
  · rcases Bool.eq_false_or_eq_true (ltBytes b c) with hbc2 | hbc2
    · exact absurd (ltBytes_trans hbc2 hca) (by simp [hab])
    · have : b = c := ltBytes_antisymm_eq hbc2 hbc
      subst this
      exact absurd hca (by simp [hab])
  · simp only [Bool.not_eq_true] at hca
    exact hca

theorem ltBytes_of_ltBytes_of_leBytes {a b c : List Nat} (hab : ltBytes a b = true)
    (hbc : leBytes b c = true) : ltBytes a c = true := by
  by_cases hbc' : b = c
  · exact hbc' ▸ hab
  · exact ltBytes_trans hab (ltBytes_of_leBytes_of_ne hbc hbc')

theorem ltBytes_of_leBytes_of_ltBytes {a b c : List Nat} (hab : leBytes a b = true)
    (hbc : ltBytes b c = true) : ltBytes a c = true := by
  by_cases hab' : a = b
  · exact hab' ▸ hbc
  · exact ltBytes_trans (ltBytes_of_leBytes_of_ne hab hab') hbc

theorem leBytes_nil_eq {a : List Nat} (h : leBytes a [] = true) : a = [] := by
  cases a with
  | nil => rfl
  | cons x xs => simp [leBytes, ltBytes] at h

theorem ikLt_irrefl (a : IKey) : ikLt a a = false := by
  simp [ikLt, ltBytes_irrefl]

theorem ikLt_trans {a b c : IKey} (hab : ikLt a b = true) (hbc : ikLt b c = true) :
    ikLt a c = true := by
  simp only [ikLt, Bool.or_eq_true, Bool.and_eq_true, beq_iff_eq, decide_eq_true_eq]
    at hab hbc ⊢
  rcases hab with hab | ⟨hab, heab⟩
  · rcases hbc with hbc | ⟨hbc, _⟩
    · exact Or.inl (ltBytes_trans hab hbc)
    · exact Or.inl (hbc ▸ hab)
  · rcases hbc with hbc | ⟨hbc, hebc⟩
    · exact Or.inl (hab ▸ hbc)
    · exact Or.inr ⟨hab.trans hbc, Nat.lt_trans hebc heab⟩

theorem ikLe_uk {a b : IKey} (h : ikLe a b = true) : leBytes a.uk b.uk = true := by
  simp only [ikLe, ikLt, Bool.not_eq_true', Bool.or_eq_false_iff] at h
  simp [leBytes, h.1]

theorem ikLt_uk_le {a b : IKey} (h : ikLt a b = true) : leBytes a.uk b.uk = true := by
  simp only [ikLt, Bool.or_eq_true, Bool.and_eq_true, beq_iff_eq] at h
  rcases h with h | ⟨h, _⟩
  · exact leBytes_of_ltBytes h
  · exact h ▸ leBytes_refl _

theorem ikLe_of_uk_lt {a b : IKey} (h : ltBytes a.uk b.uk = true) : ikLe a b = true := by
  simp only [ikLe, ikLt, Bool.not_eq_true', Bool.or_eq_false_iff, Bool.and_eq_false_iff]
  refine ⟨ltBytes_asymm h, Or.inl ?_⟩
  simp only [beq_eq_false_iff_ne, ne_eq]
  intro he
  rw [he, ltBytes_irrefl] at h
  exact Bool.false_ne_true h

/-- Out-of-range (w.r.t. the lower bound) is downward closed. -/
theorem outOfRange_mono {b : KeyBound} {k k' : List Nat} (h : outOfRange b k = true)
    (hle : leBytes k' k = true) : outOfRange b k' = true := by
  cases b with
  | Included lo => exact ltBytes_of_leBytes_of_ltBytes hle h
  | Excluded lo => exact leBytes_trans hle h
  | Unbounded => simp [outOfRange] at h

namespace ReverseUserKeyIterator

@[simp] theorem applyValue_iterator (s : ReverseUserKeyIterator) :
    (applyValue s).iterator = s.iterator := rfl

@[simp] theorem advance_entries (s : ReverseUserKeyIterator) :
    (advance s).iterator.entries = s.iterator.entries := rfl

@[simp] theorem advance_pos (s : ReverseUserKeyIterator) :
    (advance s).iterator.pos = s.iterator.pos + 1 := rfl

theorem msr_pos_succ {s : ReverseUserKeyIterator}
    (h : s.iterator.pos < s.iterator.entries.length) : msr s = (msr s - 1) + 1 := by
  unfold msr
  omega

/-- Loop-exit equation: source exhausted. -/
theorem nextLoop_eq_stop (s : ReverseUserKeyIterator)
    (hp : ¬ s.iterator.pos < s.iterator.entries.length) : nextLoop s = s := by
  rw [nextLoop]
  rcases hm : msr s with - | m
  · rfl
  · rw [nextLoopF]
    rw [if_neg hp]

/-- Loop-step equation: invisible record (`epoch > read_epoch`), skip. -/
theorem nextLoop_eq_skip (s : ReverseUserKeyIterator)
    (hp : s.iterator.pos < s.iterator.entries.length)
    (hvis : ¬ s.iterator.key.epoch ≤ s.read_epoch) :
    nextLoop s = nextLoop (advance s) := by
  have hm2 : msr (advance s) = msr s - 1 := by
    unfold msr
    simp
    omega
  rw [nextLoop, nextLoop, msr_pos_succ hp, hm2, nextLoopF]
  simp only []
  rw [if_pos hp, if_neg hvis]

/-- Loop-exit equation: fresh group, adopted key out of range, `break`. -/
theorem nextLoop_eq_jm_oor (s : ReverseUserKeyIterator)
    (hp : s.iterator.pos < s.iterator.entries.length)
    (hvis : s.iterator.key.epoch ≤ s.read_epoch)
    (hjm : s.just_met_new_key = true)
    (hoor : outOfRange s.key_range.1 s.iterator.key.uk = true) :
    nextLoop s = { s with last_key := s.iterator.key.uk, just_met_new_key := false,
                          out_of_range := true } := by
  rw [nextLoop, msr_pos_succ hp, nextLoopF]
  simp only []
  rw [if_pos hp, if_pos hvis, if_pos hjm, if_pos hoor]

/-- Loop-step equation: fresh group, in range: adopt the key, apply the
record's value, advance. -/
theorem nextLoop_eq_jm_go (s : ReverseUserKeyIterator)
    (hp : s.iterator.pos < s.iterator.entries.length)
    (hvis : s.iterator.key.epoch ≤ s.read_epoch)
    (hjm : s.just_met_new_key = true)
    (hoor : outOfRange s.key_range.1 s.iterator.key.uk = false) :
    nextLoop s = nextLoop (advance (applyValue
      { s with last_key := s.iterator.key.uk, just_met_new_key := false })) := by
  have hm2 : msr (advance (applyValue
      { s with last_key := s.iterator.key.uk, just_met_new_key := false })) = msr s - 1 := by
    unfold msr
    simp
    omega
  rw [nextLoop, nextLoop, msr_pos_succ hp, hm2, nextLoopF]
  simp only []
  rw [if_pos hp, if_pos hvis, if_pos hjm, if_neg (by simp [hoor])]

/-- Loop-exit equation: case 2(a), the previous group resolved to a live
`Put`: set `just_met_new_key` and `return`. -/
theorem nextLoop_eq_ret (s : ReverseUserKeyIterator)
    (hp : s.iterator.pos < s.iterator.entries.length)
    (hvis : s.iterator.key.epoch ≤ s.read_epoch)
    (hjm : s.just_met_new_key = false)
    (hne : s.last_key ≠ s.iterator.key.uk)
    (hld : s.last_delete = false) :
    nextLoop s = { s with just_met_new_key := true } := by
  rw [nextLoop, msr_pos_succ hp, nextLoopF]
  simp only []
  rw [if_pos hp, if_pos hvis, if_neg (by simp [hjm]), if_pos hne, if_pos hld]

/-- Loop-exit equation: case 2(b) with the adopted key out of range,
`break`. -/
theorem nextLoop_eq_del_oor (s : ReverseUserKeyIterator)
    (hp : s.iterator.pos < s.iterator.entries.length)
    (hvis : s.iterator.key.epoch ≤ s.read_epoch)
    (hjm : s.just_met_new_key = false)
    (hne : s.last_key ≠ s.iterator.key.uk)
    (hld : s.last_delete = true)
    (hoor : outOfRange s.key_range.1 s.iterator.key.uk = true) :
    nextLoop s = { s with last_key := s.iterator.key.uk, out_of_range := true } := by
  rw [nextLoop, msr_pos_succ hp, nextLoopF]
  simp only []
  rw [if_pos hp, if_pos hvis, if_neg (by simp [hjm]), if_pos hne,
    if_neg (by simp [hld]), if_pos hoor]

/-- Loop-step equation: case 2(b), previous group dead: adopt the new key,
apply the record's value, advance. -/
theorem nextLoop_eq_del_go (s : ReverseUserKeyIterator)
    (hp : s.iterator.pos < s.iterator.entries.length)
    (hvis : s.iterator.key.epoch ≤ s.read_epoch)
    (hjm : s.just_met_new_key = false)
    (hne : s.last_key ≠ s.iterator.key.uk)
    (hld : s.last_delete = true)
    (hoor : outOfRange s.key_range.1 s.iterator.key.uk = false) :
    nextLoop s = nextLoop (advance (applyValue
      { s with last_key := s.iterator.key.uk })) := by
  have hm2 : msr (advance (applyValue { s with last_key := s.iterator.key.uk })) =
      msr s - 1 := by
    unfold msr
    simp
    omega
  rw [nextLoop, nextLoop, msr_pos_succ hp, hm2, nextLoopF]
  simp only []
  rw [if_pos hp, if_pos hvis, if_neg (by simp [hjm]), if_pos hne,
    if_neg (by simp [hld]), if_neg (by simp [hoor])]

/-- Loop-step equation: case 1, one more version of the current group:
apply the record's value, advance. -/
theorem nextLoop_eq_same (s : ReverseUserKeyIterator)
    (hp : s.iterator.pos < s.iterator.entries.length)
    (hvis : s.iterator.key.epoch ≤ s.read_epoch)
    (hjm : s.just_met_new_key = false)
    (heq : s.last_key = s.iterator.key.uk) :
    nextLoop s = nextLoop (advance (applyValue s)) := by
  have hm2 : msr (advance (applyValue s)) = msr s - 1 := by
    unfold msr
    simp
    omega
  rw [nextLoop, nextLoop, msr_pos_succ hp, hm2, nextLoopF]
  simp only []
  rw [if_pos hp, if_pos hvis, if_neg (by simp [hjm]), if_neg (by simp [heq])]

end ReverseUserKeyIterator

theorem srcValid_iff (s : ReverseUserKeyIterator) :
    s.iterator.is_valid = true ↔ s.iterator.pos < s.iterator.entries.length := by
  simp [ReverseSortedIterator.is_valid]

/-- One-step case analysis of the `next` loop body: exactly one of the eight
branch shapes applies, with the corresponding equation for `nextLoop`. -/
theorem nextLoop_cases (s : ReverseUserKeyIterator) :
    (¬ s.iterator.pos < s.iterator.entries.length ∧ nextLoop s = s) ∨
    (s.iterator.pos < s.iterator.entries.length ∧
      ¬ s.iterator.key.epoch ≤ s.read_epoch ∧ nextLoop s = nextLoop (advance s)) ∨
    (s.iterator.pos < s.iterator.entries.length ∧ s.iterator.key.epoch ≤ s.read_epoch ∧
      s.just_met_new_key = true ∧ outOfRange s.key_range.1 s.iterator.key.uk = true ∧
      nextLoop s = { s with last_key := s.iterator.key.uk, just_met_new_key := false,
                            out_of_range := true }) ∨
    (s.iterator.pos < s.iterator.entries.length ∧ s.iterator.key.epoch ≤ s.read_epoch ∧
      s.just_met_new_key = true ∧ outOfRange s.key_range.1 s.iterator.key.uk = false ∧
      nextLoop s = nextLoop (advance (applyValue
        { s with last_key := s.iterator.key.uk, just_met_new_key := false }))) ∨
    (s.iterator.pos < s.iterator.entries.length ∧ s.iterator.key.epoch ≤ s.read_epoch ∧
      s.just_met_new_key = false ∧ s.last_key ≠ s.iterator.key.uk ∧ s.last_delete = false ∧
      nextLoop s = { s with just_met_new_key := true }) ∨
    (s.iterator.pos < s.iterator.entries.length ∧ s.iterator.key.epoch ≤ s.read_epoch ∧
      s.just_met_new_key = false ∧ s.last_key ≠ s.iterator.key.uk ∧ s.last_delete = true ∧
      outOfRange s.key_range.1 s.iterator.key.uk = true ∧
      nextLoop s = { s with last_key := s.iterator.key.uk, out_of_range := true }) ∨
    (s.iterator.pos < s.iterator.entries.length ∧ s.iterator.key.epoch ≤ s.read_epoch ∧
      s.just_met_new_key = false ∧ s.last_key ≠ s.iterator.key.uk ∧ s.last_delete = true ∧
      outOfRange s.key_range.1 s.iterator.key.uk = false ∧
      nextLoop s = nextLoop (advance (applyValue { s with last_key := s.iterator.key.uk }))) ∨
    (s.iterator.pos < s.iterator.entries.length ∧ s.iterator.key.epoch ≤ s.read_epoch ∧
      s.just_met_new_key = false ∧ s.last_key = s.iterator.key.uk ∧
      nextLoop s = nextLoop (advance (applyValue s))) := by
  by_cases h : s.iterator.pos < s.iterator.entries.length
  · by_cases he : s.iterator.key.epoch ≤ s.read_epoch
    · by_cases hjm : s.just_met_new_key = true
      · by_cases hoor : outOfRange s.key_range.1 s.iterator.key.uk = true
        · exact Or.inr (Or.inr (Or.inl ⟨h, he, hjm, hoor, nextLoop_eq_jm_oor s h he hjm hoor⟩))
        · have hoor' : outOfRange s.key_range.1 s.iterator.key.uk = false := by
            simpa using hoor
          exact Or.inr (Or.inr (Or.inr (Or.inl
            ⟨h, he, hjm, hoor', nextLoop_eq_jm_go s h he hjm hoor'⟩)))
      · have hjm' : s.just_met_new_key = false := by simpa using hjm
        by_cases hne : s.last_key ≠ s.iterator.key.uk
        · by_cases hld : s.last_delete = false
          · exact Or.inr (Or.inr (Or.inr (Or.inr (Or.inl
              ⟨h, he, hjm', hne, hld, nextLoop_eq_ret s h he hjm' hne hld⟩))))
          · have hld' : s.last_delete = true := by simpa using hld
            by_cases hoor : outOfRange s.key_range.1 s.iterator.key.uk = true
            · exact Or.inr (Or.inr (Or.inr (Or.inr (Or.inr (Or.inl
                ⟨h, he, hjm', hne, hld', hoor, nextLoop_eq_del_oor s h he hjm' hne hld' hoor⟩)))))
            · have hoor' : outOfRange s.key_range.1 s.iterator.key.uk = false := by
                simpa using hoor
              exact Or.inr (Or.inr (Or.inr (Or.inr (Or.inr (Or.inr (Or.inl
                ⟨h, he, hjm', hne, hld', hoor',
                  nextLoop_eq_del_go s h he hjm' hne hld' hoor'⟩))))))
        · have hne' : s.last_key = s.iterator.key.uk := by simpa using hne
          exact Or.inr (Or.inr (Or.inr (Or.inr (Or.inr (Or.inr (Or.inr
            ⟨h, he, hjm', hne', nextLoop_eq_same s h he hjm' hne'⟩))))))
    · exact Or.inr (Or.inl ⟨h, he, nextLoop_eq_skip s h he⟩)
  · exact Or.inl ⟨h, nextLoop_eq_stop s h⟩

@[simp] theorem applyValue_last_key (s : ReverseUserKeyIterator) :
    (applyValue s).last_key = s.last_key := rfl

@[simp] theorem applyValue_jm (s : ReverseUserKeyIterator) :
    (applyValue s).just_met_new_key = s.just_met_new_key := rfl

@[simp] theorem applyValue_oor (s : ReverseUserKeyIterator) :
    (applyValue s).out_of_range = s.out_of_range := rfl

@[simp] theorem applyValue_kr (s : ReverseUserKeyIterator) :
    (applyValue s).key_range = s.key_range := rfl

@[simp] theorem applyValue_re (s : ReverseUserKeyIterator) :
    (applyValue s).read_epoch = s.read_epoch := rfl

@[simp] theorem advance_last_key (s : ReverseUserKeyIterator) :
    (advance s).last_key = s.last_key := rfl

@[simp] theorem advance_last_val (s : ReverseUserKeyIterator) :
    (advance s).last_val = s.last_val := rfl

@[simp] theorem advance_jm (s : ReverseUserKeyIterator) :
    (advance s).just_met_new_key = s.just_met_new_key := rfl

@[simp] theorem advance_ld (s : ReverseUserKeyIterator) :
    (advance s).last_delete = s.last_delete := rfl

@[simp] theorem advance_oor (s : ReverseUserKeyIterator) :
    (advance s).out_of_range = s.out_of_range := rfl

@[simp] theorem advance_kr (s : ReverseUserKeyIterator) :
    (advance s).key_range = s.key_range := rfl

@[simp] theorem advance_re (s : ReverseUserKeyIterator) :
    (advance s).read_epoch = s.read_epoch := rfl

theorem applyValue_of_put {s : ReverseUserKeyIterator} {v : List Nat}
    (h : s.iterator.value = .Put v) :
    applyValue s = { s with last_val := v, last_delete := false } := by
  unfold applyValue
  rw [h]

theorem applyValue_of_delete {s : ReverseUserKeyIterator}
    (h : s.iterator.value = .Delete) :
    applyValue s = { s with last_delete := true } := by
  unfold applyValue
  rw [h]

@[simp] theorem msr_advance_applyValue (s : ReverseUserKeyIterator) :
    msr (advance (applyValue s)) = s.iterator.entries.length - (s.iterator.pos + 1) := by
  unfold msr
  simp

@[simp] theorem msr_advance_eq (s : ReverseUserKeyIterator) :
    msr (advance s) = s.iterator.entries.length - (s.iterator.pos + 1) := by
  unfold msr
  simp

/-- Frame facts: the loop never changes the stream, the range or the epoch,
and the cursor never moves backwards. -/
theorem nextLoop_frame (s : ReverseUserKeyIterator) :
    (nextLoop s).iterator.entries = s.iterator.entries ∧
    (nextLoop s).key_range = s.key_range ∧
    (nextLoop s).read_epoch = s.read_epoch ∧
    s.iterator.pos ≤ (nextLoop s).iterator.pos := by
  suffices h : ∀ (n : Nat) (s : ReverseUserKeyIterator), msr s ≤ n →
      (nextLoop s).iterator.entries = s.iterator.entries ∧
      (nextLoop s).key_range = s.key_range ∧
      (nextLoop s).read_epoch = s.read_epoch ∧
      s.iterator.pos ≤ (nextLoop s).iterator.pos from h (msr s) s le_rfl
  intro n
  induction n with
  | zero =>
    intro s hs
    rcases nextLoop_cases s with ⟨_, he⟩ | ⟨hp, _⟩ | ⟨hp, _⟩ | ⟨hp, _⟩ | ⟨hp, _⟩ |
      ⟨hp, _⟩ | ⟨hp, _⟩ | ⟨hp, _⟩
    · simp [he]
    all_goals (exfalso; unfold msr at hs; omega)
  | succ n ih =>
    intro s hs
    unfold msr at hs
    rcases nextLoop_cases s with ⟨_, he⟩ | ⟨hp, _, he⟩ | ⟨_, _, _, _, he⟩ |
      ⟨hp, _, _, _, he⟩ | ⟨_, _, _, _, _, he⟩ | ⟨_, _, _, _, _, _, he⟩ |
      ⟨hp, _, _, _, _, _, he⟩ | ⟨hp, _, _, _, he⟩
    · simp [he]
    · rw [he]
      have h2 := ih (advance s) (by simp; omega)
      simp only [advance_entries, advance_kr, advance_re, advance_pos] at h2
      exact ⟨h2.1, h2.2.1, h2.2.2.1, by omega⟩
    · simp [he]
    · rw [he]
      have h2 := ih (advance (applyValue
        { s with last_key := s.iterator.key.uk, just_met_new_key := false })) (by simp; omega)
      simp only [advance_entries, advance_kr, advance_re, advance_pos,
        applyValue_iterator, applyValue_kr, applyValue_re] at h2
      exact ⟨h2.1, h2.2.1, h2.2.2.1, by omega⟩
    · simp [he]
    · simp [he]
    · rw [he]
      have h2 := ih (advance (applyValue
        { s with last_key := s.iterator.key.uk })) (by simp; omega)
      simp only [advance_entries, advance_kr, advance_re, advance_pos,
        applyValue_iterator, applyValue_kr, applyValue_re] at h2
      exact ⟨h2.1, h2.2.1, h2.2.2.1, by omega⟩
    · rw [he]
      have h2 := ih (advance (applyValue s)) (by simp; omega)
      simp only [advance_entries, advance_kr, advance_re, advance_pos,
        applyValue_iterator, applyValue_kr, applyValue_re] at h2
      exact ⟨h2.1, h2.2.1, h2.2.2.1, by omega⟩

/-- The sticky `out_of_range` flag is never cleared by the loop. -/
theorem nextLoop_oor_mono (s : ReverseUserKeyIterator) (h : s.out_of_range = true) :
    (nextLoop s).out_of_range = true := by
  suffices hh : ∀ (n : Nat) (s : ReverseUserKeyIterator), msr s ≤ n →
      s.out_of_range = true → (nextLoop s).out_of_range = true from hh (msr s) s le_rfl h
  intro n
  induction n with
  | zero =>
    intro s hs h
    rcases nextLoop_cases s with ⟨_, he⟩ | ⟨hp, _⟩ | ⟨hp, _⟩ | ⟨hp, _⟩ | ⟨hp, _⟩ |
      ⟨hp, _⟩ | ⟨hp, _⟩ | ⟨hp, _⟩
    · rw [he]; exact h
    all_goals (exfalso; unfold msr at hs; omega)
  | succ n ih =>
    intro s hs h
    unfold msr at hs
    rcases nextLoop_cases s with ⟨_, he⟩ | ⟨hp, _, he⟩ | ⟨_, _, _, _, he⟩ |
      ⟨hp, _, _, _, he⟩ | ⟨_, _, _, _, _, he⟩ | ⟨_, _, _, _, _, _, he⟩ |
      ⟨hp, _, _, _, _, _, he⟩ | ⟨hp, _, _, _, he⟩
    · rw [he]; exact h
    · rw [he]; exact ih (advance s) (by simp; omega) h
    · rw [he]
    · rw [he]
      exact ih (advance (applyValue
        { s with last_key := s.iterator.key.uk, just_met_new_key := false }))
        (by simp; omega) (by simpa using h)
    · rw [he]; exact h
    · rw [he]
    · rw [he]
      exact ih (advance (applyValue { s with last_key := s.iterator.key.uk }))
        (by simp; omega) (by simpa using h)
    · rw [he]
      exact ih (advance (applyValue s)) (by simp; omega) (by simpa using h)

/-- Shapes of the state in which the loop can return: either `out_of_range`
was just set, or the source is exhausted, or the loop stopped in case 2(a)
with a live previous group (`last_delete` false, `just_met_new_key` true). -/
theorem nextLoop_ret (s : ReverseUserKeyIterator) :
    (nextLoop s).out_of_range = true ∨
    ¬ (nextLoop s).iterator.pos < (nextLoop s).iterator.entries.length ∨
    ((nextLoop s).last_delete = false ∧ (nextLoop s).just_met_new_key = true) := by
  suffices hh : ∀ (n : Nat) (s : ReverseUserKeyIterator), msr s ≤ n →
      (nextLoop s).out_of_range = true ∨
      ¬ (nextLoop s).iterator.pos < (nextLoop s).iterator.entries.length ∨
      ((nextLoop s).last_delete = false ∧ (nextLoop s).just_met_new_key = true) from
    hh (msr s) s le_rfl
  intro n
  induction n with
  | zero =>
    intro s hs
    rcases nextLoop_cases s with ⟨hp, he⟩ | ⟨hp, _⟩ | ⟨hp, _⟩ | ⟨hp, _⟩ | ⟨hp, _⟩ |
      ⟨hp, _⟩ | ⟨hp, _⟩ | ⟨hp, _⟩
    · rw [he]; exact Or.inr (Or.inl hp)
    all_goals (exfalso; unfold msr at hs; omega)
  | succ n ih =>
    intro s hs
    unfold msr at hs
    rcases nextLoop_cases s with ⟨hp, he⟩ | ⟨hp, _, he⟩ | ⟨_, _, _, _, he⟩ |
      ⟨hp, _, _, _, he⟩ | ⟨_, _, _, _, hld, he⟩ | ⟨_, _, _, _, _, _, he⟩ |
      ⟨hp, _, _, _, _, _, he⟩ | ⟨hp, _, _, _, he⟩
    · rw [he]; exact Or.inr (Or.inl hp)
    · rw [he]; exact ih (advance s) (by simp; omega)
    · rw [he]; exact Or.inl rfl
    · rw [he]
      exact ih (advance (applyValue
        { s with last_key := s.iterator.key.uk, just_met_new_key := false })) (by simp; omega)
    · rw [he]; exact Or.inr (Or.inr ⟨hld, rfl⟩)
    · rw [he]; exact Or.inl rfl
    · rw [he]
      exact ih (advance (applyValue { s with last_key := s.iterator.key.uk })) (by simp; omega)
    · rw [he]; exact ih (advance (applyValue s)) (by simp; omega)

/-- Frame facts for `next`. -/
theorem next_frame (s : ReverseUserKeyIterator) :
    (next s).iterator.entries = s.iterator.entries ∧
    (next s).key_range = s.key_range ∧
    (next s).read_epoch = s.read_epoch := by
  unfold next
  by_cases h : s.iterator.is_valid = true
  · rw [if_pos h]
    exact ⟨(nextLoop_frame s).1, (nextLoop_frame s).2.1, (nextLoop_frame s).2.2.1⟩
  · rw [if_neg h]
    exact ⟨rfl, rfl, rfl⟩

/-- Return shapes for `next`. -/
theorem next_ret (s : ReverseUserKeyIterator) :
    (next s).out_of_range = true ∨
    ¬ (next s).iterator.pos < (next s).iterator.entries.length ∨
    ((next s).last_delete = false ∧ (next s).just_met_new_key = true) := by
  unfold next
  by_cases h : s.iterator.is_valid = true
  · rw [if_pos h]
    exact nextLoop_ret s
  · rw [if_neg h]
    refine Or.inr (Or.inl ?_)
    rw [srcValid_iff] at h
    exact h

/-- Claim C2: after any `next`, `is_valid()` holds iff
`(!last_delete && !out_of_range)`, independent of the source's validity;
in general `is_valid()` is exactly
`(iterator.is_valid() || !last_delete) && !out_of_range`, so the iterator
can stay valid for one more emission after the source is exhausted when the
final group resolved to a live `Put`. -/
theorem next_is_valid_iff_not_delete (s : ReverseUserKeyIterator) :
    (is_valid (next s) = (!(next s).last_delete && !(next s).out_of_range)) ∧
    (is_valid s = ((s.iterator.is_valid || !s.last_delete) && !s.out_of_range)) ∧
    (s.iterator.is_valid = false → s.last_delete = false → s.out_of_range = false →
      is_valid s = true) := by
  refine ⟨?_, rfl, ?_⟩
  · rcases next_ret s with h | h | h
    · simp [is_valid, h]
    · have h2 : (next s).iterator.is_valid = false := by
        simp only [ReverseSortedIterator.is_valid, decide_eq_false_iff_not]
        exact h
      simp [is_valid, h2]
    · simp [is_valid, h.1]
  · intro h1 h2 h3
    simp [is_valid, h1, h2, h3]

/-- Witness for C2 at a concrete state: the source is exhausted but the last
group resolved to a live `Put`, and the iterator is still valid. -/
theorem next_is_valid_iff_not_delete_witness :
    is_valid
      { iterator := ⟨[(⟨[3], 1⟩, HummockValue.Put [9])], 1⟩
        just_met_new_key := false
        last_key := [3]
        last_val := [9]
        last_delete := false
        out_of_range := false
        key_range := (KeyBound.Unbounded, KeyBound.Unbounded)
        read_epoch := 5 } = true :=
  (next_is_valid_iff_not_delete
      { iterator := ⟨[(⟨[3], 1⟩, HummockValue.Put [9])], 1⟩
        just_met_new_key := false
        last_key := [3]
        last_val := [9]
        last_delete := false
        out_of_range := false
        key_range := (KeyBound.Unbounded, KeyBound.Unbounded)
        read_epoch := 5 }).2.2 (by decide) (by decide) (by decide)

/-- Claim C10: when the source iterator is already invalid, `next()` only
sets `last_delete` (abusing it as the exhaustion marker), leaves the source
untouched, makes the iterator invalid, and is idempotent from then on. -/
theorem next_on_invalid_source (s : ReverseUserKeyIterator)
    (h : s.iterator.is_valid = false) :
    next s = { s with last_delete := true } ∧
    is_valid (next s) = false ∧
    next (next s) = next s ∧
    (next s).iterator = s.iterator := by
  have hb : ¬ s.iterator.is_valid = true := by simp [h]
  have h1 : next s = { s with last_delete := true } := by
    unfold next
    rw [if_neg hb]
  refine ⟨h1, ?_, ?_, ?_⟩
  · rw [h1]
    simp [is_valid, ReverseSortedIterator.is_valid] at h ⊢
    omega
  · rw [h1]
    unfold next
    rw [if_neg hb]
  · rw [h1]

/-- Witness for C10 at a concrete exhausted state. -/
theorem next_on_invalid_source_witness :
    next
        { iterator := ⟨[(⟨[3], 1⟩, HummockValue.Put [9])], 1⟩
          just_met_new_key := false
          last_key := [3]
          last_val := [9]
          last_delete := false
          out_of_range := false
          key_range := (KeyBound.Unbounded, KeyBound.Unbounded)
          read_epoch := 5 } =
      { iterator := ⟨[(⟨[3], 1⟩, HummockValue.Put [9])], 1⟩
        just_met_new_key := false
        last_key := [3]
        last_val := [9]
        last_delete := true
        out_of_range := false
        key_range := (KeyBound.Unbounded, KeyBound.Unbounded)
        read_epoch := 5 } :=
  (next_on_invalid_source
      { iterator := ⟨[(⟨[3], 1⟩, HummockValue.Put [9])], 1⟩
        just_met_new_key := false
        last_key := [3]
        last_val := [9]
        last_delete := false
        out_of_range := false
        key_range := (KeyBound.Unbounded, KeyBound.Unbounded)
        read_epoch := 5 } (by decide)).1

/-- The loop treats `last_val` as write-only until a `Put` overwrites it:
running from a state that differs only in `last_val` either yields the same
state with that `last_val` (no `Put` applied, original `last_val` kept), or
exactly the same state (a `Put` was applied). -/
theorem nextLoop_lv (n : Nat) : ∀ (s : ReverseUserKeyIterator) (v : List Nat), msr s ≤ n →
    (nextLoop { s with last_val := v } = { nextLoop s with last_val := v } ∧
      (nextLoop s).last_val = s.last_val) ∨
    nextLoop { s with last_val := v } = nextLoop s := by
  induction n with
  | zero =>
    intro s v hs
    rcases nextLoop_cases s with ⟨hp, he⟩ | ⟨hp, _⟩ | ⟨hp, _⟩ | ⟨hp, _⟩ | ⟨hp, _⟩ |
      ⟨hp, _⟩ | ⟨hp, _⟩ | ⟨hp, _⟩
    · left
      constructor
      · rw [he, nextLoop_eq_stop { s with last_val := v } hp]
      · rw [he]
    all_goals (exfalso; unfold msr at hs; omega)
  | succ n ih =>
    intro s v hs
    unfold msr at hs
    rcases nextLoop_cases s with ⟨hp, he⟩ | ⟨hp, hvis, he⟩ | ⟨hp, hvis, hjm, hoor, he⟩ |
      ⟨hp, hvis, hjm, hoor, he⟩ | ⟨hp, hvis, hjm, hne, hld, he⟩ |
      ⟨hp, hvis, hjm, hne, hld, hoor, he⟩ | ⟨hp, hvis, hjm, hne, hld, hoor, he⟩ |
      ⟨hp, hvis, hjm, hkeq, he⟩
    · left
      constructor
      · rw [he, nextLoop_eq_stop { s with last_val := v } hp]
      · rw [he]
    · -- invisible record: skip and advance
      have e2 : nextLoop { s with last_val := v } =
          nextLoop (advance { s with last_val := v }) :=
        nextLoop_eq_skip { s with last_val := v } hp hvis
      have e3 : advance { s with last_val := v } = { advance s with last_val := v } := rfl
      rw [he, e2, e3]
      exact ih (advance s) v (by simp; omega)
    · -- just met new key, adopted key out of range: break
      left
      constructor
      · rw [he, nextLoop_eq_jm_oor { s with last_val := v } hp hvis hjm hoor]
      · rw [he]
    · -- just met new key, in range: adopt, apply value, advance
      have e2 : nextLoop { s with last_val := v } = nextLoop (advance (applyValue
          { s with last_key := s.iterator.key.uk, just_met_new_key := false, last_val := v })) :=
        nextLoop_eq_jm_go { s with last_val := v } hp hvis hjm hoor
      rw [he, e2]
      cases hval : s.iterator.value with
      | Put w =>
        right
        have e4 : applyValue { s with last_key := s.iterator.key.uk, just_met_new_key := false, last_val := v } = { s with last_key := s.iterator.key.uk, just_met_new_key := false, last_val := w, last_delete := false } := applyValue_of_put hval
        have e5 : applyValue { s with last_key := s.iterator.key.uk, just_met_new_key := false } = { s with last_key := s.iterator.key.uk, just_met_new_key := false, last_val := w, last_delete := false } := applyValue_of_put hval
        rw [e4, e5]
      | Delete =>
        have e4 : applyValue { s with last_key := s.iterator.key.uk, just_met_new_key := false, last_val := v } = { s with last_key := s.iterator.key.uk, just_met_new_key := false, last_val := v, last_delete := true } := applyValue_of_delete hval
        have e5 : applyValue { s with last_key := s.iterator.key.uk, just_met_new_key := false } = { s with last_key := s.iterator.key.uk, just_met_new_key := false, last_delete := true } := applyValue_of_delete hval
        rw [e4, e5]
        have e6 : advance { s with last_key := s.iterator.key.uk, just_met_new_key := false, last_val := v, last_delete := true } = { advance { s with last_key := s.iterator.key.uk, just_met_new_key := false, last_delete := true } with last_val := v } := rfl
        rw [e6]
        exact ih _ v (by simp; omega)
    · -- case 2(a): previous group live, return
      left
      constructor
      · rw [he, nextLoop_eq_ret { s with last_val := v } hp hvis hjm hne hld]
      · rw [he]
    · -- case 2(b), adopted key out of range: break
      left
      constructor
      · rw [he, nextLoop_eq_del_oor { s with last_val := v } hp hvis hjm hne hld hoor]
      · rw [he]
    · -- case 2(b), in range: adopt, apply value, advance
      have e2 : nextLoop { s with last_val := v } = nextLoop (advance (applyValue
          { s with last_key := s.iterator.key.uk, last_val := v })) :=
        nextLoop_eq_del_go { s with last_val := v } hp hvis hjm hne hld hoor
      rw [he, e2]
      cases hval : s.iterator.value with
      | Put w =>
        right
        have e4 : applyValue { s with last_key := s.iterator.key.uk, last_val := v } = { s with last_key := s.iterator.key.uk, last_val := w, last_delete := false } := applyValue_of_put hval
        have e5 : applyValue { s with last_key := s.iterator.key.uk } = { s with last_key := s.iterator.key.uk, last_val := w, last_delete := false } := applyValue_of_put hval
        rw [e4, e5]
      | Delete =>
        have e4 : applyValue { s with last_key := s.iterator.key.uk, last_val := v } = { s with last_key := s.iterator.key.uk, last_val := v, last_delete := true } := applyValue_of_delete hval
        have e5 : applyValue { s with last_key := s.iterator.key.uk } = { s with last_key := s.iterator.key.uk, last_delete := true } := applyValue_of_delete hval
        rw [e4, e5]
        have e6 : advance { s with last_key := s.iterator.key.uk, last_val := v, last_delete := true } = { advance { s with last_key := s.iterator.key.uk, last_delete := true } with last_val := v } := rfl
        rw [e6]
        exact ih _ v (by simp; omega)
    · -- case 1: same key, apply value, advance
      have e2 : nextLoop { s with last_val := v } = nextLoop (advance (applyValue
          { s with last_val := v })) :=
        nextLoop_eq_same { s with last_val := v } hp hvis hjm hkeq
      rw [he, e2]
      cases hval : s.iterator.value with
      | Put w =>
        right
        have e4 : applyValue { s with last_val := v } = { s with last_val := w, last_delete := false } := applyValue_of_put hval
        have e5 : applyValue s = { s with last_val := w, last_delete := false } := applyValue_of_put hval
        rw [e4, e5]
      | Delete =>
        have e4 : applyValue { s with last_val := v } = { s with last_val := v, last_delete := true } := applyValue_of_delete hval
        have e5 : applyValue s = { s with last_delete := true } := applyValue_of_delete hval
        rw [e4, e5]
        have e6 : advance { s with last_val := v, last_delete := true } = { advance { s with last_delete := true } with last_val := v } := rfl
        rw [e6]
        exact ih _ v (by simp; omega)

/-- `next` version of `nextLoop_lv`. -/
theorem next_lv (s : ReverseUserKeyIterator) (v : List Nat) :
    (next { s with last_val := v } = { next s with last_val := v } ∧
      (next s).last_val = s.last_val) ∨
    next { s with last_val := v } = next s := by
  by_cases h : s.iterator.is_valid = true
  · have e1 : next { s with last_val := v } = nextLoop { s with last_val := v } := by
      unfold next
      rw [if_pos h]
    have e2 : next s = nextLoop s := by
      unfold next
      rw [if_pos h]
    rw [e1, e2]
    exact nextLoop_lv (msr s) s v le_rfl
  · have e1 : next { s with last_val := v } = { s with last_val := v, last_delete := true } := by
      unfold next
      rw [if_neg h]
    have e2 : next s = { s with last_delete := true } := by
      unfold next
      rw [if_neg h]
    left
    constructor
    · rw [e1, e2]
    · rw [e2]

theorem seek_entries_congr {it it' : ReverseSortedIterator} (h : it.entries = it'.entries)
    (t : IKey) : it.seek t = it'.seek t := by
  unfold ReverseSortedIterator.seek
  rw [h]

/-- Claim C9: two successive `seek(k)` calls leave the iterator in an
identical state — not merely observably identical: the second `seek`
re-clamps the same target, repositions the source at the same cursor, and
the priming `next` recomputes the same resolution, with `last_val` (the one
field `reset` does not clear) converging as well. -/
theorem seek_idempotent (s : ReverseUserKeyIterator) (k : List Nat)
    (s1 : ReverseUserKeyIterator) (h : seek s k = some s1) :
    seek s1 k = some s1 := by
  cases h2 : s.key_range.2 with
  | Excluded hi =>
    unfold seek at h
    rw [h2] at h
    exact absurd h (by simp)
  | Included hi =>
    unfold seek at h
    rw [h2] at h
    simp only [Option.some.injEq] at h
    have hkr1 : s1.key_range = s.key_range := by
      rw [← h]
      exact (next_frame _).2.1
    have hre1 : s1.read_epoch = s.read_epoch := by
      rw [← h]
      exact (next_frame _).2.2
    have hent1 : s1.iterator.entries = s.iterator.entries := by
      rw [← h]
      exact (next_frame _).1
    unfold seek
    rw [hkr1, h2]
    simp only [Option.some.injEq]
    rw [seek_entries_congr hent1 ⟨if ltBytes hi k then hi else k, 0⟩, hre1]
    show next { reset { s with iterator := s.iterator.seek ⟨if ltBytes hi k then hi else k, 0⟩ } with last_val := s1.last_val } = s1
    subst h
    rcases next_lv (reset { s with iterator := s.iterator.seek ⟨if ltBytes hi k then hi else k, 0⟩ }) (next (reset { s with iterator := s.iterator.seek ⟨if ltBytes hi k then hi else k, 0⟩ })).last_val with ⟨e, _⟩ | e
    · rw [e]
    · rw [e]
  | Unbounded =>
    unfold seek at h
    rw [h2] at h
    simp only [Option.some.injEq] at h
    have hkr1 : s1.key_range = s.key_range := by
      rw [← h]
      exact (next_frame _).2.1
    have hre1 : s1.read_epoch = s.read_epoch := by
      rw [← h]
      exact (next_frame _).2.2
    have hent1 : s1.iterator.entries = s.iterator.entries := by
      rw [← h]
      exact (next_frame _).1
    unfold seek
    rw [hkr1, h2]
    simp only [Option.some.injEq]
    rw [seek_entries_congr hent1 ⟨k, 0⟩, hre1]
    show next { reset { s with iterator := s.iterator.seek ⟨k, 0⟩ } with last_val := s1.last_val } = s1
    subst h
    rcases next_lv (reset { s with iterator := s.iterator.seek ⟨k, 0⟩ }) (next (reset { s with iterator := s.iterator.seek ⟨k, 0⟩ })).last_val with ⟨e, _⟩ | e
    · rw [e]
    · rw [e]

/-- Witness for C9: a concrete double-seek over real data. -/
theorem seek_idempotent_witness :
    seek ((seek (mkIter
          [(⟨[2], 300⟩, HummockValue.Delete), (⟨[2], 400⟩, HummockValue.Put [102]),
           (⟨[1], 100⟩, HummockValue.Put [101]), (⟨[1], 200⟩, HummockValue.Delete)]
          (KeyBound.Unbounded, KeyBound.Unbounded) 1000) [2]).getD
        (mkIter [] (KeyBound.Unbounded, KeyBound.Unbounded) 0)) [2] =
      some ((seek (mkIter
          [(⟨[2], 300⟩, HummockValue.Delete), (⟨[2], 400⟩, HummockValue.Put [102]),
           (⟨[1], 100⟩, HummockValue.Put [101]), (⟨[1], 200⟩, HummockValue.Delete)]
          (KeyBound.Unbounded, KeyBound.Unbounded) 1000) [2]).getD
        (mkIter [] (KeyBound.Unbounded, KeyBound.Unbounded) 0)) :=
  seek_idempotent (mkIter
      [(⟨[2], 300⟩, HummockValue.Delete), (⟨[2], 400⟩, HummockValue.Put [102]),
       (⟨[1], 100⟩, HummockValue.Put [101]), (⟨[1], 200⟩, HummockValue.Delete)]
      (KeyBound.Unbounded, KeyBound.Unbounded) 1000) [2] _ (by decide)

/-- Claim C8: with an `Excluded` upper bound, `rewind` and `seek` both fail
loudly (the `unimplemented!` panic, modelled as `none`), and an iterator so
constructed never becomes valid, so no record is ever emitted through it. -/
theorem excluded_upper_bound_fails (entries : List (IKey × HummockValue))
    (lo : KeyBound) (hi : List Nat) (re : Nat) (uk : List Nat) (n : Nat) :
    rewind (mkIter entries (lo, .Excluded hi) re) = none ∧
    seek (mkIter entries (lo, .Excluded hi) re) uk = none ∧
    is_valid (next^[n] (mkIter entries (lo, .Excluded hi) re)) = false := by
  refine ⟨rfl, rfl, ?_⟩
  have key : ∀ m : Nat,
      (next^[m] (mkIter entries (lo, .Excluded hi) re)).iterator =
        ReverseSortedIterator.new entries ∧
      (next^[m] (mkIter entries (lo, .Excluded hi) re)).last_delete = true := by
    intro m
    induction m with
    | zero => exact ⟨rfl, rfl⟩
    | succ m ih =>
      rw [Function.iterate_succ_apply']
      have hinv : (next^[m] (mkIter entries (lo, .Excluded hi) re)).iterator.is_valid
          = false := by
        rw [ih.1]
        simp [ReverseSortedIterator.is_valid, ReverseSortedIterator.new]
      have h1 := (next_on_invalid_source _ hinv).1
      rw [h1]
      exact ⟨ih.1, rfl⟩
  have h1 := (key n).1
  have h2 := (key n).2
  simp [is_valid, h1, h2, ReverseSortedIterator.is_valid, ReverseSortedIterator.new]

theorem curE_key (s : ReverseUserKeyIterator) : s.iterator.key = (curE s).1 := rfl

theorem curE_value (s : ReverseUserKeyIterator) : s.iterator.value = (curE s).2 := rfl

theorem rem_cons (s : ReverseUserKeyIterator)
    (h : s.iterator.pos < s.iterator.entries.length) :
    rem s = curE s :: rem (advance s) := by
  unfold rem curE
  rw [List.getD_eq_getElem _ _ h]
  exact List.drop_eq_getElem_cons h

theorem passed_advance (s : ReverseUserKeyIterator)
    (h : s.iterator.pos < s.iterator.entries.length) :
    passed (advance s) = passed s ++ [curE s] := by
  unfold passed curE
  rw [List.getD_eq_getElem _ _ h]
  show s.iterator.entries.take (s.iterator.pos + 1) = _
  rw [List.take_succ, List.getElem?_eq_getElem h]
  rfl

/-- Sortedness: every passed record sorts strictly above the current one. -/
theorem sorted_passed_gt {s : ReverseUserKeyIterator}
    (hs : sortedDesc s.iterator.entries)
    (hp : s.iterator.pos < s.iterator.entries.length) :
    ∀ e ∈ passed s, ikLt (curE s).1 e.1 = true := by
  intro e he
  have hsplit : passed s ++ rem s = s.iterator.entries :=
    List.take_append_drop _ _
  rw [← hsplit] at hs
  unfold sortedDesc at hs
  rw [List.pairwise_append] at hs
  have hcur : curE s ∈ rem s := by
    rw [rem_cons s hp]
    exact List.mem_cons_self _ _
  exact hs.2.2 e he (curE s) hcur

/-- Sortedness: every record after the current one sorts strictly below it. -/
theorem sorted_rem_lt {s : ReverseUserKeyIterator}
    (hs : sortedDesc s.iterator.entries)
    (hp : s.iterator.pos < s.iterator.entries.length) :
    ∀ e ∈ rem (advance s), ikLt e.1 (curE s).1 = true := by
  intro e he
  have hsplit : passed s ++ rem s = s.iterator.entries :=
    List.take_append_drop _ _
  rw [← hsplit] at hs
  unfold sortedDesc at hs
  rw [List.pairwise_append] at hs
  have := hs.2.1
  rw [rem_cons s hp] at this
  rw [List.pairwise_cons] at this
  exact this.1 e he

/-- Sortedness: user keys after the current record are `≤` its user key. -/
theorem sorted_rem_adv_le {s : ReverseUserKeyIterator}
    (hs : sortedDesc s.iterator.entries)
    (hp : s.iterator.pos < s.iterator.entries.length) :
    AllLeK (rem (advance s)) (curE s).1.uk := by
  intro e he
  exact ikLt_uk_le (sorted_rem_lt hs hp e he)

theorem rem_aav (X : ReverseUserKeyIterator) :
    rem (advance (applyValue X)) = rem (advance X) := by
  unfold rem
  simp

theorem passed_aav (X : ReverseUserKeyIterator) :
    passed (advance (applyValue X)) = passed (advance X) := by
  unfold passed
  simp

theorem curE_mem_rem {s : ReverseUserKeyIterator}
    (hp : s.iterator.pos < s.iterator.entries.length) : curE s ∈ rem s := by
  rw [rem_cons s hp]
  exact List.mem_cons_self _ _

/-- Propagation of the reachability invariant through the loop, entered in
group-resolving mode (`just_met_new_key` false), together with the fact that
`last_key` can only decrease while it bounds the remaining stream. -/
theorem nextLoop_R (n : Nat) : ∀ s : ReverseUserKeyIterator, msr s ≤ n →
    sortedDesc s.iterator.entries →
    s.just_met_new_key = false →
    PV s →
    (s.last_delete = false → AllLeK (rem s) s.last_key) →
    Rinv (nextLoop s) ∧
    (AllLeK (rem s) s.last_key → leBytes (nextLoop s).last_key s.last_key = true) := by
  induction n with
  | zero =>
    intro s hm hs hjm0 hPV hbnd
    rcases nextLoop_cases s with ⟨hp, he⟩ | ⟨hp, _⟩ | ⟨hp, _⟩ | ⟨hp, _⟩ | ⟨hp, _⟩ |
      ⟨hp, _⟩ | ⟨hp, _⟩ | ⟨hp, _⟩
    · rw [he]
      exact ⟨⟨hPV, fun h => absurd h (by simp [hjm0]), fun _ => hbnd⟩,
        fun _ => leBytes_refl _⟩
    all_goals (exfalso; unfold msr at hm; omega)
  | succ n ih =>
    intro s hm hs hjm0 hPV hbnd
    unfold msr at hm
    rcases nextLoop_cases s with ⟨hp, he⟩ | ⟨hp, hvis, he⟩ | ⟨hp, hvis, hjm, hoor, he⟩ |
      ⟨hp, hvis, hjm, hoor, he⟩ | ⟨hp, hvis, hjm, hne, hld, he⟩ |
      ⟨hp, hvis, hjm, hne, hld, hoor, he⟩ | ⟨hp, hvis, hjm, hne, hld, hoor, he⟩ |
      ⟨hp, hvis, hjm, hkeq, he⟩
    · rw [he]
      exact ⟨⟨hPV, fun h => absurd h (by simp [hjm0]), fun _ => hbnd⟩,
        fun _ => leBytes_refl _⟩
    · -- invisible record: skip
      rw [he]
      have hsub : ∀ e ∈ rem (advance s), e ∈ rem s := by
        intro e he2
        rw [rem_cons s hp]
        exact List.mem_cons_of_mem _ he2
      have hres := ih (advance s) (by simp; omega) hs hjm0
        (by
          intro e he2 hv
          rw [passed_advance s hp] at he2
          rcases List.mem_append.mp he2 with h1 | h1
          · exact hPV e h1 hv
          · rw [List.mem_singleton.mp h1] at hv
            exact absurd hv hvis)
        (fun hld2 => fun e he2 => hbnd hld2 e (hsub e he2))
      exact ⟨hres.1, fun hAll => hres.2 (fun e he2 => hAll e (hsub e he2))⟩
    · simp [hjm0] at hjm
    · simp [hjm0] at hjm
    · -- case 2(a): return with just_met_new_key set
      rw [he]
      have hAll := hbnd hld
      have hcle : leBytes s.iterator.key.uk s.last_key = true :=
        hAll (curE s) (curE_mem_rem hp)
      have hclt : ltBytes s.iterator.key.uk s.last_key = true :=
        ltBytes_of_leBytes_of_ne hcle (fun hq => hne hq.symm)
      refine ⟨⟨hPV, fun _ => ⟨hp, hvis, hclt, hld⟩, fun h => by simp at h⟩,
        fun _ => leBytes_refl _⟩
    · -- case 2(b) out of range: break
      rw [he]
      refine ⟨⟨?_, fun h => absurd h (by simp [hjm0]), fun _ hld2 => by simp [hld] at hld2⟩,
        fun hAll => hAll (curE s) (curE_mem_rem hp)⟩
      intro e he2 _
      exact ikLt_uk_le (sorted_passed_gt hs hp e he2)
    · -- case 2(b) in range: adopt and resolve the new group
      rw [he]
      have hres := ih (advance (applyValue { s with last_key := s.iterator.key.uk }))
        (by simp; omega)
        hs
        hjm0
        (by
          intro e he2 hv
          rw [passed_advance (applyValue { s with last_key := s.iterator.key.uk }) hp] at he2
          rcases List.mem_append.mp he2 with h1 | h1
          · exact ikLt_uk_le (sorted_passed_gt hs hp e h1)
          · rw [List.mem_singleton.mp h1]
            exact leBytes_refl _)
        (fun _ => sorted_rem_adv_le hs hp)
      refine ⟨hres.1, fun hAll => ?_⟩
      have h2 := hres.2 (sorted_rem_adv_le hs hp)
      exact leBytes_trans h2 (hAll (curE s) (curE_mem_rem hp))
    · -- case 1: one more version of the current group
      rw [he]
      have hres := ih (advance (applyValue s))
        (by simp; omega)
        hs
        hjm0
        (by
          intro e he2 hv
          rw [passed_advance (applyValue s) hp] at he2
          rcases List.mem_append.mp he2 with h1 | h1
          · exact hPV e h1 hv
          · rw [List.mem_singleton.mp h1]
            show leBytes s.last_key (curE s).1.uk = true
            rw [hkeq]
            exact leBytes_refl _)
        (fun _ => hkeq ▸ sorted_rem_adv_le hs hp)
      refine ⟨hres.1, fun _ => ?_⟩
      exact hres.2 (hkeq ▸ sorted_rem_adv_le hs hp)

theorem ikLt_epoch_of_uk_eq {a b : IKey} (h : ikLt a b = true) (huk : a.uk = b.uk) :
    b.epoch < a.epoch := by
  simp only [ikLt, Bool.or_eq_true, Bool.and_eq_true, beq_iff_eq, decide_eq_true_eq] at h
  rcases h with h | ⟨_, h⟩
  · rw [huk, ltBytes_irrefl] at h
    exact absurd h (by simp)
  · exact h

/-- A `just_met_new_key` state steps by adopting the (in-range) current key
and resolving its group; the invariant holds afterwards and the key resolved
next is at most the adopted one. -/
theorem nextLoop_R_jm (s : ReverseUserKeyIterator)
    (hs : sortedDesc s.iterator.entries)
    (hp : s.iterator.pos < s.iterator.entries.length)
    (hvis : s.iterator.key.epoch ≤ s.read_epoch)
    (hjm : s.just_met_new_key = true)
    (hoor : outOfRange s.key_range.1 s.iterator.key.uk = false) :
    Rinv (nextLoop s) ∧ leBytes (nextLoop s).last_key s.iterator.key.uk = true := by
  rw [nextLoop_eq_jm_go s hp hvis hjm hoor]
  have hres := nextLoop_R
    (msr (advance (applyValue
      { s with last_key := s.iterator.key.uk, just_met_new_key := false })))
    (advance (applyValue
      { s with last_key := s.iterator.key.uk, just_met_new_key := false }))
    le_rfl hs rfl
    (by
      intro e he2 hv
      rw [passed_advance (applyValue
        { s with last_key := s.iterator.key.uk, just_met_new_key := false }) hp] at he2
      rcases List.mem_append.mp he2 with h1 | h1
      · exact ikLt_uk_le (sorted_passed_gt hs hp e h1)
      · rw [List.mem_singleton.mp h1]
        exact leBytes_refl _)
    (fun _ => sorted_rem_adv_le hs hp)
  exact ⟨hres.1, hres.2 (sorted_rem_adv_le hs hp)⟩

/-- `next` preserves the reachability invariant. -/
theorem next_R (s : ReverseUserKeyIterator) (hs : sortedDesc s.iterator.entries)
    (hR : Rinv s) : Rinv (next s) := by
  by_cases hv : s.iterator.is_valid = true
  · have hnext : next s = nextLoop s := by
      unfold next
      rw [if_pos hv]
    rw [hnext]
    by_cases hjm : s.just_met_new_key = true
    · obtain ⟨hp, hvis, hlt, hld⟩ := hR.2.1 hjm
      by_cases hoor : outOfRange s.key_range.1 s.iterator.key.uk = true
      · rw [nextLoop_eq_jm_oor s hp hvis hjm hoor]
        refine ⟨?_, fun h => Bool.noConfusion h, fun _ _ => ?_⟩
        · intro e he2 _
          exact ikLt_uk_le (sorted_passed_gt hs hp e he2)
        · intro e he2
          have he3 : e ∈ rem s := he2
          rw [rem_cons s hp] at he3
          rcases List.mem_cons.mp he3 with h1 | h1
          · rw [h1]
            exact leBytes_refl _
          · exact sorted_rem_adv_le hs hp e h1
      · exact (nextLoop_R_jm s hs hp hvis hjm (by simpa using hoor)).1
    · exact (nextLoop_R (msr s) s le_rfl hs (by simpa using hjm) hR.1
        (hR.2.2 (by simpa using hjm))).1
  · have hnext : next s = { s with last_delete := true } := by
      unfold next
      rw [if_neg hv]
    rw [hnext]
    refine ⟨hR.1, fun h => ?_, fun _ h => Bool.noConfusion h⟩
    exact absurd (hR.2.1 h).1 (by rw [srcValid_iff] at hv; exact hv)

/-- A freshly `reset` iterator satisfies the reachability invariant. -/
theorem Rinv_reset (base : ReverseUserKeyIterator) : Rinv (reset base) :=
  ⟨fun _ _ _ => leBytes_nil _, fun h => Bool.noConfusion h, fun _ h => Bool.noConfusion h⟩

/-- Whatever starts a scan, the start state is the priming `next` of a
`reset` state whose source is positioned somewhere in the same stream. -/
theorem scanStart_shape (entries : List (IKey × HummockValue))
    (kr : KeyBound × KeyBound) (re : Nat) (t : Option (List Nat))
    (s₀ : ReverseUserKeyIterator)
    (h : scanStart (mkIter entries kr re) t = some s₀) :
    ∃ p : Nat, s₀ = next (reset { mkIter entries kr re with iterator := ⟨entries, p⟩ }) := by
  rcases t with - | u
  · unfold scanStart rewind at h
    rcases h2 : (mkIter entries kr re).key_range.2 with hi | hi
    · rw [h2] at h
      simp only [Option.some.injEq] at h
      exact ⟨_, h.symm⟩
    · rw [h2] at h
      exact absurd h (by simp)
    · rw [h2] at h
      simp only [Option.some.injEq] at h
      exact ⟨0, h.symm⟩
  · unfold scanStart seek at h
    rcases h2 : (mkIter entries kr re).key_range.2 with hi | hi
    · rw [h2] at h
      simp only [Option.some.injEq] at h
      exact ⟨_, h.symm⟩
    · rw [h2] at h
      exact absurd h (by simp)
    · rw [h2] at h
      simp only [Option.some.injEq] at h
      exact ⟨_, h.symm⟩

/-- Along a scan the stream never changes, the range and epoch are fixed,
and the reachability invariant holds. -/
theorem scan_reach (entries : List (IKey × HummockValue))
    (kr : KeyBound × KeyBound) (re : Nat) (t : Option (List Nat))
    (s₀ : ReverseUserKeyIterator) (n : Nat)
    (hs : sortedDesc entries)
    (h : scanStart (mkIter entries kr re) t = some s₀) :
    (next^[n] s₀).iterator.entries = entries ∧ Rinv (next^[n] s₀) := by
  obtain ⟨p, hp⟩ := scanStart_shape entries kr re t s₀ h
  induction n with
  | zero =>
    subst hp
    refine ⟨(next_frame _).1, ?_⟩
    exact next_R _ hs (Rinv_reset _)
  | succ n ih =>
    rw [Function.iterate_succ_apply']
    refine ⟨?_, ?_⟩
    · rw [(next_frame _).1]
      exact ih.1
    · exact next_R _ (by rw [ih.1]; exact hs) ih.2

theorem scan_state_is_next (entries : List (IKey × HummockValue))
    (kr : KeyBound × KeyBound) (re : Nat) (t : Option (List Nat))
    (s₀ : ReverseUserKeyIterator) (n : Nat)
    (h : scanStart (mkIter entries kr re) t = some s₀) :
    ∃ p : ReverseUserKeyIterator, next^[n] s₀ = next p := by
  obtain ⟨q, hq⟩ := scanStart_shape entries kr re t s₀ h
  cases n with
  | zero => exact ⟨_, hq⟩
  | succ n =>
    rw [Function.iterate_succ_apply']
    exact ⟨_, rfl⟩

/-- Claim C7 (amended): whenever `next` returns with `is_valid()` and the
source still valid, the iterator is in the `just_met_new_key` state: the
source sits on a record that is visible at the snapshot, belongs to a user
key strictly below `last_key`, is the first record of its own group (no
record of that group was passed), has not been applied, and the following
`next` applies it first (the key it resolves next is `≤` that record's key).
Moreover this group is the NEAREST strictly smaller group with a visible
record: every record of the stream that is visible at the snapshot has a
user key either `≤` the cursor's user key or `≥ last_key`, so no user-key
group with a visible record lies strictly between the two.  Fully invisible
groups may have been skipped, so this is not necessarily the adjacent group
in the data. -/
theorem c7_ready_state (entries : List (IKey × HummockValue))
    (kr : KeyBound × KeyBound) (re : Nat) (t : Option (List Nat))
    (s₀ : ReverseUserKeyIterator) (n : Nat)
    (hs : sortedDesc entries)
    (hst : scanStart (mkIter entries kr re) t = some s₀)
    (hvalid : is_valid (next^[n] s₀) = true)
    (hsrc : (next^[n] s₀).iterator.is_valid = true) :
    (next^[n] s₀).just_met_new_key = true ∧
    (next^[n] s₀).iterator.key.epoch ≤ (next^[n] s₀).read_epoch ∧
    ltBytes (next^[n] s₀).iterator.key.uk (next^[n] s₀).last_key = true ∧
    (next^[n] s₀).last_delete = false ∧
    (∀ e ∈ passed (next^[n] s₀), e.1.uk ≠ (next^[n] s₀).iterator.key.uk) ∧
    (∀ e ∈ (next^[n] s₀).iterator.entries, e.1.epoch ≤ (next^[n] s₀).read_epoch →
      leBytes e.1.uk (next^[n] s₀).iterator.key.uk = true ∨
      leBytes (next^[n] s₀).last_key e.1.uk = true) ∧
    (is_valid (next (next^[n] s₀)) = true →
      leBytes (next (next^[n] s₀)).last_key (next^[n] s₀).iterator.key.uk = true) := by
  set S := next^[n] s₀ with hSdef
  have hreach := scan_reach entries kr re t s₀ n hs hst
  rw [← hSdef] at hreach
  have hsS : sortedDesc S.iterator.entries := by
    rw [hreach.1]
    exact hs
  have hoorS : S.out_of_range = false := by
    simp only [is_valid, Bool.and_eq_true, Bool.not_eq_true'] at hvalid
    exact hvalid.2
  have hjm : S.just_met_new_key = true ∧ S.last_delete = false := by
    obtain ⟨p, hp⟩ := scan_state_is_next entries kr re t s₀ n hst
    rw [← hSdef] at hp
    have hret := next_ret p
    rw [← hp] at hret
    rcases hret with h1 | h1 | h1
    · rw [h1] at hoorS
      exact absurd hoorS (by simp)
    · rw [srcValid_iff] at hsrc
      exact absurd hsrc h1
    · exact ⟨h1.2, h1.1⟩
  obtain ⟨hp', hvis, hlt, hld⟩ := hreach.2.2.1 hjm.1
  refine ⟨hjm.1, hvis, hlt, hjm.2, ?_, ?_, ?_⟩
  · intro e he hEq
    by_cases hve : e.1.epoch ≤ S.read_epoch
    · have h5 : ltBytes S.iterator.key.uk e.1.uk = true :=
        ltBytes_of_ltBytes_of_leBytes hlt (hreach.2.1 e he hve)
      rw [hEq, ltBytes_irrefl] at h5
      exact Bool.noConfusion h5
    · have h6 := sorted_passed_gt hsS hp' e he
      have h7 : e.1.epoch < (curE S).1.epoch :=
        ikLt_epoch_of_uk_eq h6 hEq.symm
      exact hve (Nat.le_of_lt (Nat.lt_of_lt_of_le h7 hvis))
  · intro e he hve
    have hsplit : passed S ++ rem S = S.iterator.entries := List.take_append_drop _ _
    rw [← hsplit] at he
    rcases List.mem_append.mp he with h1 | h1
    · exact Or.inr (hreach.2.1 e h1 hve)
    · rw [rem_cons S hp'] at h1
      rcases List.mem_cons.mp h1 with h2 | h2
      · rw [h2]
        exact Or.inl (leBytes_refl _)
      · exact Or.inl (sorted_rem_adv_le hsS hp' e h2)
  · intro hq
    have hnext : next S = nextLoop S := by
      unfold next
      rw [if_pos hsrc]
    by_cases hoor : outOfRange S.key_range.1 S.iterator.key.uk = true
    · rw [hnext, nextLoop_eq_jm_oor S hp' hvis hjm.1 hoor] at hq
      simp [is_valid] at hq
    · rw [hnext]
      exact (nextLoop_R_jm S hsS hp' hvis hjm.1 (by simpa using hoor)).2

/-- Witness for the amended C7 at a concrete scan (first ready state of a
three-record stream with an invisible middle group). -/
theorem c7_ready_state_witness :
    (next^[0] ((rewind (mkIter
        [(⟨[3], 1⟩, HummockValue.Put [10]), (⟨[2], 9⟩, HummockValue.Put [11]),
         (⟨[1], 1⟩, HummockValue.Put [12])]
        (KeyBound.Unbounded, KeyBound.Unbounded) 5)).getD
      (mkIter [] (KeyBound.Unbounded, KeyBound.Unbounded) 0))).just_met_new_key = true :=
  (c7_ready_state
    [(⟨[3], 1⟩, HummockValue.Put [10]), (⟨[2], 9⟩, HummockValue.Put [11]),
     (⟨[1], 1⟩, HummockValue.Put [12])]
    (KeyBound.Unbounded, KeyBound.Unbounded) 5 none _ 0
    (by decide) (by decide) (by decide) (by decide)).1

/-- Counterexample to C7 as stated: after the first emission of this scan
the source is parked on the group `[1]`, although the data contains the
strictly smaller group `[2]` right below `last_key = [3]` — the `[2]` group
is entirely above `read_epoch` and was skipped, so the cursor is *not* on
the first record of "the next (strictly smaller) user-key group". -/
theorem c7_counterexample :
    is_valid ((rewind (mkIter
        [(⟨[3], 1⟩, HummockValue.Put [10]), (⟨[2], 9⟩, HummockValue.Put [11]),
         (⟨[1], 1⟩, HummockValue.Put [12])]
        (KeyBound.Unbounded, KeyBound.Unbounded) 5)).getD
      (mkIter [] (KeyBound.Unbounded, KeyBound.Unbounded) 0)) = true ∧
    ((rewind (mkIter
        [(⟨[3], 1⟩, HummockValue.Put [10]), (⟨[2], 9⟩, HummockValue.Put [11]),
         (⟨[1], 1⟩, HummockValue.Put [12])]
        (KeyBound.Unbounded, KeyBound.Unbounded) 5)).getD
      (mkIter [] (KeyBound.Unbounded, KeyBound.Unbounded) 0)).iterator.is_valid = true ∧
    ((rewind (mkIter
        [(⟨[3], 1⟩, HummockValue.Put [10]), (⟨[2], 9⟩, HummockValue.Put [11]),
         (⟨[1], 1⟩, HummockValue.Put [12])]
        (KeyBound.Unbounded, KeyBound.Unbounded) 5)).getD
      (mkIter [] (KeyBound.Unbounded, KeyBound.Unbounded) 0)).last_key = [3] ∧
    ((rewind (mkIter
        [(⟨[3], 1⟩, HummockValue.Put [10]), (⟨[2], 9⟩, HummockValue.Put [11]),
         (⟨[1], 1⟩, HummockValue.Put [12])]
        (KeyBound.Unbounded, KeyBound.Unbounded) 5)).getD
      (mkIter [] (KeyBound.Unbounded, KeyBound.Unbounded) 0)).iterator.key.uk = [1] ∧
    (((⟨[2], 9⟩ : IKey), HummockValue.Put [11]) ∈
      ((rewind (mkIter
        [(⟨[3], 1⟩, HummockValue.Put [10]), (⟨[2], 9⟩, HummockValue.Put [11]),
         (⟨[1], 1⟩, HummockValue.Put [12])]
        (KeyBound.Unbounded, KeyBound.Unbounded) 5)).getD
      (mkIter [] (KeyBound.Unbounded, KeyBound.Unbounded) 0)).iterator.entries) ∧
    ltBytes [2] [3] = true ∧ ([1] : List Nat) ≠ [2] := by
  decide

theorem ukSorted_of_sortedDesc {l : List (IKey × HummockValue)} (h : sortedDesc l) :
    ukSorted l :=
  List.Pairwise.imp (fun hab => ikLt_uk_le hab) h

theorem ukSorted_tail {e : IKey × HummockValue} {l : List (IKey × HummockValue)}
    (h : ukSorted (e :: l)) : ukSorted l :=
  (List.pairwise_cons.mp h).2

theorem ukSorted_head {e : IKey × HummockValue} {l : List (IKey × HummockValue)}
    (h : ukSorted (e :: l)) : ∀ x ∈ l, leBytes x.1.uk e.1.uk = true :=
  (List.pairwise_cons.mp h).1

/-- Seed irrelevance: starting `applyList` from a dead group, the resolution
outcome does not depend on the carried value, and the carried value only
matters if nothing resolves. -/
theorem applyList_seed (l : List (IKey × HummockValue)) : ∀ (v w : List Nat),
    (applyList true v l).1 = (applyList true w l).1 ∧
    ((applyList true v l).1 = false → (applyList true v l).2 = (applyList true w l).2) := by
  induction l with
  | nil =>
    intro v w
    exact ⟨rfl, fun h => Bool.noConfusion h⟩
  | cons e rest ih =>
    intro v w
    rcases e with ⟨i, val⟩
    cases val with
    | Put p => exact ⟨rfl, fun _ => rfl⟩
    | Delete => exact ih v w

/-- `applyList` splits over list append. -/
theorem applyList_append (l1 : List (IKey × HummockValue)) :
    ∀ (l2 : List (IKey × HummockValue)) (a : Bool) (v : List Nat),
    applyList a v (l1 ++ l2) = applyList (applyList a v l1).1 (applyList a v l1).2 l2 := by
  induction l1 with
  | nil => intro l2 a v; rfl
  | cons e rest ih =>
    intro l2 a v
    rcases e with ⟨i, val⟩
    cases val with
    | Put p => exact ih l2 false p
    | Delete => exact ih l2 true v

/-- A group ending in a `Put` resolves to that payload. -/
theorem applyList_concat_put (l : List (IKey × HummockValue)) (a : Bool) (v : List Nat)
    (i : IKey) (p : List Nat) :
    applyList a v (l ++ [(i, .Put p)]) = (false, p) := by
  rw [applyList_append]
  rfl

/-- A group ending in a `Delete` resolves to a tombstone. -/
theorem applyList_concat_delete (l : List (IKey × HummockValue)) (a : Bool) (v : List Nat)
    (i : IKey) :
    (applyList a v (l ++ [(i, .Delete)])).1 = true := by
  rw [applyList_append]
  rfl

/-- Within a non-increasing stream headed by `e`, the records with `e`'s
user key form a prefix: filtering equals `takeWhile`. -/
theorem filter_eq_takeWhile_of_sorted {e : IKey × HummockValue} :
    ∀ {l : List (IKey × HummockValue)}, ukSorted (e :: l) →
    l.filter (fun x => x.1.uk == e.1.uk) = l.takeWhile (fun x => x.1.uk == e.1.uk) := by
  intro l
  induction l with
  | nil => intro _; rfl
  | cons f rest ih =>
    intro h
    by_cases hf : ((fun x : IKey × HummockValue => x.1.uk == e.1.uk) f) = true
    · rw [@List.filter_cons_of_pos _ (fun x : IKey × HummockValue => x.1.uk == e.1.uk) f rest hf,
        @List.takeWhile_cons_of_pos _ (fun x : IKey × HummockValue => x.1.uk == e.1.uk) f rest hf]
      have h2 : ukSorted (e :: rest) := by
        rcases List.pairwise_cons.mp h with ⟨h1, h3⟩
        rcases List.pairwise_cons.mp h3 with ⟨_, h4⟩
        exact List.pairwise_cons.mpr ⟨fun x hx => h1 x (List.mem_cons_of_mem _ hx), h4⟩
      rw [ih h2]
    · rw [@List.filter_cons_of_neg _ (fun x : IKey × HummockValue => x.1.uk == e.1.uk) f rest hf,
        @List.takeWhile_cons_of_neg _ (fun x : IKey × HummockValue => x.1.uk == e.1.uk) f rest hf]
      have hf0 : (f.1.uk == e.1.uk) = false := Bool.eq_false_iff.mpr hf
      have hlt : ltBytes f.1.uk e.1.uk = true := by
        refine ltBytes_of_leBytes_of_ne (ukSorted_head h f (List.mem_cons_self _ _)) ?_
        intro hq
        rw [hq] at hf0
        simp at hf0
      rw [List.filter_eq_nil_iff]
      intro x hx
      have hxlt : ltBytes x.1.uk e.1.uk = true :=
        ltBytes_of_leBytes_of_ltBytes (ukSorted_head (ukSorted_tail h) x hx) hlt
      simp only [Bool.not_eq_true, beq_eq_false_iff_ne, ne_eq]
      intro hq
      rw [hq, ltBytes_irrefl] at hxlt
      exact Bool.noConfusion hxlt

theorem ukSorted_drop_mid {e f : IKey × HummockValue} {l : List (IKey × HummockValue)}
    (h : ukSorted (e :: f :: l)) : ukSorted (e :: l) := by
  rcases List.pairwise_cons.mp h with ⟨h1, h3⟩
  rcases List.pairwise_cons.mp h3 with ⟨_, h4⟩
  exact List.pairwise_cons.mpr ⟨fun x hx => h1 x (List.mem_cons_of_mem _ hx), h4⟩

theorem mem_group_uk {u : List Nat} {l : List (IKey × HummockValue)}
    {x : IKey × HummockValue} (hx : x ∈ l.takeWhile (fun z => z.1.uk == u)) :
    x.1.uk = u := by
  have h2 := List.mem_takeWhile_imp hx
  simpa using h2

/-- Everything after the head group is strictly below the head's user key. -/
theorem dropWhile_lt {e : IKey × HummockValue} :
    ∀ {l : List (IKey × HummockValue)}, ukSorted (e :: l) →
    ∀ x ∈ l.dropWhile (fun z => z.1.uk == e.1.uk), ltBytes x.1.uk e.1.uk = true := by
  intro l
  induction l with
  | nil => intro _ x hx; exact absurd hx (List.not_mem_nil _)
  | cons f rest ih =>
    intro h x hx
    by_cases hf : ((fun z : IKey × HummockValue => z.1.uk == e.1.uk) f) = true
    · rw [@List.dropWhile_cons_of_pos _ (fun z : IKey × HummockValue => z.1.uk == e.1.uk) f rest hf]
        at hx
      exact ih (ukSorted_drop_mid h) x hx
    · rw [@List.dropWhile_cons_of_neg _ (fun z : IKey × HummockValue => z.1.uk == e.1.uk) f rest hf]
        at hx
      have hf0 : (f.1.uk == e.1.uk) = false := Bool.eq_false_iff.mpr hf
      have hlt : ltBytes f.1.uk e.1.uk = true := by
        refine ltBytes_of_leBytes_of_ne (ukSorted_head h f (List.mem_cons_self _ _)) ?_
        intro hq
        rw [hq] at hf0
        simp at hf0
      rcases List.mem_cons.mp hx with h1 | h1
      · rw [h1]; exact hlt
      · exact ltBytes_of_leBytes_of_ltBytes (ukSorted_head (ukSorted_tail h) x h1) hlt

theorem refEmitB_nil (lo : KeyBound) : refEmitB lo [] = [] := by
  rw [refEmitB]

theorem refEmitB_cons (lo : KeyBound) (e : IKey × HummockValue)
    (rest : List (IKey × HummockValue)) :
    refEmitB lo (e :: rest) =
      if outOfRange lo e.1.uk then []
      else
        (if (applyList true [] (e :: rest.takeWhile (fun x => x.1.uk == e.1.uk))).1 then []
         else [(e.1.uk, (applyList true [] (e :: rest.takeWhile (fun x => x.1.uk == e.1.uk))).2)])
          ++ refEmitB lo (rest.dropWhile (fun x => x.1.uk == e.1.uk)) := by
  rw [refEmitB]

/-- Every key emitted by the reference scan occurs in the stream and respects
the lower bound. -/
theorem refEmitB_mem_key (lo : KeyBound) :
    ∀ (n : Nat) (l : List (IKey × HummockValue)), l.length ≤ n →
    ∀ k v, (k, v) ∈ refEmitB lo l →
    (∃ e ∈ l, e.1.uk = k) ∧ outOfRange lo k = false := by
  intro n
  induction n with
  | zero =>
    intro l hl k v hm
    have hn : l = [] := List.length_eq_zero.mp (Nat.le_zero.mp hl)
    rw [hn, refEmitB_nil] at hm
    exact absurd hm (List.not_mem_nil _)
  | succ n ih =>
    intro l hl k v hm
    cases l with
    | nil => rw [refEmitB_nil] at hm; exact absurd hm (List.not_mem_nil _)
    | cons e rest =>
      rw [refEmitB_cons] at hm
      by_cases hoor : outOfRange lo e.1.uk = true
      · rw [if_pos hoor] at hm; exact absurd hm (List.not_mem_nil _)
      · rw [if_neg hoor] at hm
        rcases List.mem_append.mp hm with h1 | h1
        · rcases hq : (applyList true [] (e :: rest.takeWhile (fun x => x.1.uk == e.1.uk))).1 with _ | _
          · rw [hq] at h1
            simp only [if_false, Bool.false_eq_true] at h1
            rcases List.mem_singleton.mp h1 with h2
            have hk : k = e.1.uk := congrArg Prod.fst h2
            refine ⟨⟨e, List.mem_cons_self _ _, hk.symm⟩, ?_⟩
            rw [hk]
            exact Bool.eq_false_iff.mpr hoor
          · rw [hq] at h1
            simp at h1
        · have hsub : List.Sublist
              (List.dropWhile (fun x : IKey × HummockValue => x.1.uk == e.1.uk) rest) rest :=
            List.dropWhile_sublist _
          have hlen : (rest.dropWhile (fun x => x.1.uk == e.1.uk)).length ≤ n :=
            Nat.le_trans hsub.length_le (Nat.le_of_succ_le_succ hl)
          rcases ih _ hlen k v h1 with ⟨⟨x, hx, hxk⟩, hk⟩
          exact ⟨⟨x, List.mem_cons_of_mem _ (hsub.mem hx), hxk⟩, hk⟩

theorem groupRes_nil (k : List Nat) : groupRes k [] = (true, []) := rfl

/-- Membership in the reference scan, characterised per key: `(k, v)` is
emitted iff `k` respects the lower bound and `k`'s group resolves to a live
`Put` of `v`. -/
theorem refEmitB_mem_iff (lo : KeyBound) :
    ∀ (n : Nat) (l : List (IKey × HummockValue)), l.length ≤ n → ukSorted l →
    ∀ k v, ((k, v) ∈ refEmitB lo l ↔
      outOfRange lo k = false ∧ (groupRes k l).1 = false ∧ (groupRes k l).2 = v) := by
  intro n
  induction n with
  | zero =>
    intro l hl _ k v
    have hn : l = [] := List.length_eq_zero.mp (Nat.le_zero.mp hl)
    subst hn
    rw [refEmitB_nil]
    constructor
    · intro hm; exact absurd hm (List.not_mem_nil _)
    · rintro ⟨_, h2, _⟩; exact Bool.noConfusion h2
  | succ n ih =>
    intro l hl hs k v
    cases l with
    | nil =>
      rw [refEmitB_nil]
      constructor
      · intro hm; exact absurd hm (List.not_mem_nil _)
      · rintro ⟨_, h2, _⟩; exact Bool.noConfusion h2
    | cons e rest =>
      rw [refEmitB_cons]
      by_cases hoor : outOfRange lo e.1.uk = true
      · rw [if_pos hoor]
        constructor
        · intro hm; exact absurd hm (List.not_mem_nil _)
        · rintro ⟨h1, h2, _⟩
          exfalso
          by_cases hfe : (e :: rest).filter (fun x => x.1.uk == k) = []
          · rw [groupRes, hfe] at h2; exact Bool.noConfusion h2
          · rcases List.exists_mem_of_ne_nil _ hfe with ⟨x, hx⟩
            rcases List.mem_filter.mp hx with ⟨hxl, hxk⟩
            have hxle : leBytes x.1.uk e.1.uk = true := by
              rcases List.mem_cons.mp hxl with h3 | h3
              · rw [h3]; exact leBytes_refl _
              · exact ukSorted_head hs x h3
            have hkle : leBytes k e.1.uk = true := by
              have hxe : x.1.uk = k := by simpa using hxk
              rw [← hxe]; exact hxle
            rw [outOfRange_mono hoor hkle] at h1
            exact Bool.noConfusion h1
      · rw [if_neg hoor]
        by_cases hk : k = e.1.uk
        · rw [hk]
          have hfil : (e :: rest).filter (fun x => x.1.uk == e.1.uk) =
              e :: rest.takeWhile (fun x => x.1.uk == e.1.uk) := by
            rw [@List.filter_cons_of_pos _ (fun x : IKey × HummockValue => x.1.uk == e.1.uk)
              e rest (by simp)]
            rw [filter_eq_takeWhile_of_sorted hs]
          have hgr : groupRes e.1.uk (e :: rest) =
              applyList true [] (e :: rest.takeWhile (fun x => x.1.uk == e.1.uk)) := by
            rw [groupRes, hfil]
          constructor
          · intro hm
            rcases List.mem_append.mp hm with h1 | h1
            · rcases hq : (applyList true []
                  (e :: rest.takeWhile (fun x => x.1.uk == e.1.uk))).1 with _ | _
              · rw [hq] at h1
                simp only [Bool.false_eq_true, if_false] at h1
                rcases List.mem_singleton.mp h1 with h2
                have hv : v = (applyList true []
                    (e :: rest.takeWhile (fun x => x.1.uk == e.1.uk))).2 := congrArg Prod.snd h2
                refine ⟨Bool.eq_false_iff.mpr hoor, ?_, ?_⟩
                · rw [hgr]; exact hq
                · rw [hgr]; exact hv.symm
              · rw [hq] at h1
                simp at h1
            · exfalso
              rcases refEmitB_mem_key lo (rest.dropWhile (fun x => x.1.uk == e.1.uk)).length _
                (Nat.le_refl _) _ _ h1 with ⟨⟨x, hx, hxk⟩, _⟩
              have hlt := dropWhile_lt hs x hx
              rw [hxk, ltBytes_irrefl] at hlt
              exact Bool.noConfusion hlt
          · rintro ⟨h1, h2, h3⟩
            rw [hgr] at h2 h3
            apply List.mem_append.mpr
            left
            rw [if_neg (fun hq => Bool.noConfusion (h2.symm.trans hq))]
            rw [← h3]
            exact List.mem_singleton.mpr rfl
        · have hsub : List.Sublist
              (List.dropWhile (fun x : IKey × HummockValue => x.1.uk == e.1.uk) rest) rest :=
            List.dropWhile_sublist _
          have hlen : (rest.dropWhile (fun x => x.1.uk == e.1.uk)).length ≤ n :=
            Nat.le_trans hsub.length_le (Nat.le_of_succ_le_succ hl)
          have hs2 : ukSorted (rest.dropWhile (fun x => x.1.uk == e.1.uk)) :=
            List.Pairwise.sublist (hsub.trans (List.sublist_cons_self e rest)) hs
          have hfe : (e :: rest).filter (fun x => x.1.uk == k) =
              (rest.dropWhile (fun x => x.1.uk == e.1.uk)).filter (fun x => x.1.uk == k) := by
            rw [@List.filter_cons_of_neg _ (fun x : IKey × HummockValue => x.1.uk == k) e rest
              (by simpa using fun h => hk h.symm)]
            conv_lhs =>
              rw [← List.takeWhile_append_dropWhile (fun x : IKey × HummockValue =>
                x.1.uk == e.1.uk) rest]
            rw [List.filter_append]
            have hnil : (rest.takeWhile (fun x => x.1.uk == e.1.uk)).filter
                (fun x => x.1.uk == k) = [] := by
              rw [List.filter_eq_nil_iff]
              intro x hx
              have hxe := mem_group_uk hx
              simp only [Bool.not_eq_true, beq_eq_false_iff_ne, ne_eq]
              rw [hxe]
              exact fun h => hk h.symm
            rw [hnil, List.nil_append]
          have hgr : groupRes k (e :: rest) =
              groupRes k (rest.dropWhile (fun x => x.1.uk == e.1.uk)) := by
            rw [groupRes, groupRes, hfe]
          constructor
          · intro hm
            rcases List.mem_append.mp hm with h1 | h1
            · exfalso
              rcases hq : (applyList true []
                  (e :: rest.takeWhile (fun x => x.1.uk == e.1.uk))).1 with _ | _
              · rw [hq] at h1
                simp only [Bool.false_eq_true, if_false] at h1
                rcases List.mem_singleton.mp h1 with h2
                exact hk (congrArg Prod.fst h2)
              · rw [hq] at h1
                simp at h1
            · rw [hgr]
              exact (ih _ hlen hs2 k v).mp h1
          · rintro ⟨h1, h2, h3⟩
            rw [hgr] at h2 h3
            apply List.mem_append.mpr
            right
            exact (ih _ hlen hs2 k v).mpr ⟨h1, h2, h3⟩

/-- The reference scan's keys are strictly descending. -/
theorem refEmitB_keys_desc (lo : KeyBound) :
    ∀ (n : Nat) (l : List (IKey × HummockValue)), l.length ≤ n → ukSorted l →
    List.Pairwise (fun a b => ltBytes b a = true) ((refEmitB lo l).map Prod.fst) := by
  intro n
  induction n with
  | zero =>
    intro l hl _
    have hn : l = [] := List.length_eq_zero.mp (Nat.le_zero.mp hl)
    rw [hn, refEmitB_nil]
    exact List.Pairwise.nil
  | succ n ih =>
    intro l hl hs
    cases l with
    | nil => rw [refEmitB_nil]; exact List.Pairwise.nil
    | cons e rest =>
      rw [refEmitB_cons]
      by_cases hoor : outOfRange lo e.1.uk = true
      · rw [if_pos hoor]; exact List.Pairwise.nil
      · rw [if_neg hoor]
        have hsub : List.Sublist
            (List.dropWhile (fun x : IKey × HummockValue => x.1.uk == e.1.uk) rest) rest :=
          List.dropWhile_sublist _
        have hlen : (rest.dropWhile (fun x => x.1.uk == e.1.uk)).length ≤ n :=
          Nat.le_trans hsub.length_le (Nat.le_of_succ_le_succ hl)
        have hs2 : ukSorted (rest.dropWhile (fun x => x.1.uk == e.1.uk)) :=
          List.Pairwise.sublist (hsub.trans (List.sublist_cons_self e rest)) hs
        have hrec := ih _ hlen hs2
        rcases hq : (applyList true []
            (e :: rest.takeWhile (fun x => x.1.uk == e.1.uk))).1 with _ | _
        · simp only [Bool.false_eq_true, if_false, List.singleton_append, List.map_cons]
          apply List.pairwise_cons.mpr
          refine ⟨?_, hrec⟩
          intro a ha
          rcases List.mem_map.mp ha with ⟨p, hp, hpa⟩
          rcases p with ⟨pk, pv⟩
          rcases refEmitB_mem_key lo _ _ (Nat.le_refl _) _ _ hp with ⟨⟨x, hx, hxk⟩, _⟩
          have hlt := dropWhile_lt hs x hx
          rw [hxk] at hlt
          rw [← hpa]
          exact hlt
        · rw [if_pos rfl, List.nil_append]
          exact hrec

theorem vrem_eq_visibles (s : ReverseUserKeyIterator) :
    vrem s = visibles s.read_epoch (rem s) := rfl

/-- In a strictly descending stream, the visible versions of one user key
have strictly ascending epochs. -/
theorem group_epochs_asc {entries : List (IKey × HummockValue)} (hs : sortedDesc entries)
    (k : List Nat) (re : Nat) :
    List.Pairwise (fun a b => a.1.epoch < b.1.epoch)
      (entries.filter (fun e => e.1.uk == k && decide (e.1.epoch ≤ re))) := by
  have hp : List.Pairwise (fun a b : IKey × HummockValue => ikLt b.1 a.1 = true)
      (entries.filter (fun e => e.1.uk == k && decide (e.1.epoch ≤ re))) :=
    List.Pairwise.filter _ hs
  refine List.Pairwise.imp_of_mem ?_ hp
  intro a b ha hb hab
  have hak : a.1.uk = k := by
    have := (List.mem_filter.mp ha).2
    simp only [Bool.and_eq_true, beq_iff_eq] at this
    exact this.1
  have hbk : b.1.uk = k := by
    have := (List.mem_filter.mp hb).2
    simp only [Bool.and_eq_true, beq_iff_eq] at this
    exact this.1
  simp only [ikLt, Bool.or_eq_true, Bool.and_eq_true, beq_iff_eq, decide_eq_true_eq] at hab
  rcases hab with h1 | ⟨_, h2⟩
  · rw [hbk, hak, ltBytes_irrefl] at h1
    exact absurd h1 Bool.false_ne_true
  · exact h2

/-- Folding the epoch-argmax over an epoch-ascending list lands on its last
element. -/
theorem foldl_newest_asc (l : List (IKey × HummockValue))
    (h : List.Pairwise (fun a b : IKey × HummockValue => a.1.epoch < b.1.epoch) l) :
    l.foldl (fun acc e => match acc with
      | none => some e
      | some a => if a.1.epoch < e.1.epoch then some e else acc) none = l.getLast? := by
  induction l using List.reverseRecOn with
  | nil => rfl
  | append_singleton l x ih =>
    rw [List.foldl_append, List.getLast?_concat]
    rcases List.pairwise_append.mp h with ⟨h1, _, h3⟩
    rw [ih h1]
    rcases hg : l.getLast? with _ | a
    · rfl
    · have ha : a ∈ l := List.mem_of_getLast?_eq_some hg
      have hax : a.1.epoch < x.1.epoch := h3 a ha x (List.mem_singleton.mpr rfl)
      show (if a.1.epoch < x.1.epoch then some x else some a) = some x
      rw [if_pos hax]

/-- `newestVisible` is the last visible version of the key in scan order. -/
theorem newestVisible_getLast (entries : List (IKey × HummockValue))
    (hs : sortedDesc entries) (k : List Nat) (re : Nat) :
    newestVisible entries k re =
      (entries.filter (fun e => e.1.uk == k && decide (e.1.epoch ≤ re))).getLast? := by
  rw [newestVisible]
  exact foldl_newest_asc _ (group_epochs_asc hs k re)

/-- Resolving a key's visible group agrees with the epoch-argmax ground
truth. -/
theorem groupRes_visibles (entries : List (IKey × HummockValue))
    (hs : sortedDesc entries) (k : List Nat) (re : Nat) (v : List Nat) :
    ((groupRes k (visibles re entries)).1 = false ∧
      (groupRes k (visibles re entries)).2 = v) ↔
    newestVisiblePut entries k re = some v := by
  have hfil : (visibles re entries).filter (fun x => x.1.uk == k) =
      entries.filter (fun e => e.1.uk == k && decide (e.1.epoch ≤ re)) := by
    rw [visibles, List.filter_filter]
  have hgr : groupRes k (visibles re entries) =
      applyList true []
        (entries.filter (fun e => e.1.uk == k && decide (e.1.epoch ≤ re))) := by
    rw [groupRes, hfil]
  rw [hgr, newestVisiblePut, newestVisible_getLast entries hs k re]
  rcases List.eq_nil_or_concat
      (entries.filter (fun e => e.1.uk == k && decide (e.1.epoch ≤ re))) with hn | ⟨L, b, hc⟩
  · rw [hn]
    simp only [List.getLast?_nil]
    constructor
    · rintro ⟨h1, _⟩; exact Bool.noConfusion h1
    · intro h; exact Option.noConfusion h
  · rw [hc, List.concat_eq_append, List.getLast?_concat]
    rcases b with ⟨i, val⟩
    cases val with
    | Put p =>
      rw [applyList_concat_put]
      constructor
      · rintro ⟨_, h2⟩
        rw [← h2]
      · intro h
        have hp : p = v := by
          have := Option.some.inj h
          exact this
        exact ⟨rfl, hp⟩
    | Delete =>
      constructor
      · rintro ⟨h1, _⟩
        rw [applyList_concat_delete] at h1
        exact Bool.noConfusion h1
      · intro h
        exact Option.noConfusion h

theorem applyList_cons_put {e : IKey × HummockValue} {v : List Nat} (h : e.2 = .Put v)
    (a : Bool) (w : List Nat) (l : List (IKey × HummockValue)) :
    applyList a w (e :: l) = applyList false v l := by
  rcases e with ⟨i, val⟩
  cases val with
  | Put p =>
    have hp : p = v := by simpa using h
    rw [hp]
    rfl
  | Delete => exact absurd h (by simp)

theorem applyList_cons_delete {e : IKey × HummockValue} (h : e.2 = .Delete)
    (a : Bool) (w : List Nat) (l : List (IKey × HummockValue)) :
    applyList a w (e :: l) = applyList true w l := by
  rcases e with ⟨i, val⟩
  cases val with
  | Put p => exact absurd h (by simp)
  | Delete => rfl

theorem takeWhile_all {α : Type} (p : α → Bool) :
    ∀ l : List α, (∀ x ∈ l, p x = true) → l.takeWhile p = l ∧ l.dropWhile p = [] := by
  intro l
  induction l with
  | nil => intro _; exact ⟨rfl, rfl⟩
  | cons a l ih =>
    intro h
    have ha := h a (List.mem_cons_self _ _)
    rw [List.takeWhile_cons_of_pos ha, List.dropWhile_cons_of_pos ha]
    rcases ih (fun x hx => h x (List.mem_cons_of_mem _ hx)) with ⟨h1, h2⟩
    rw [h1, h2]
    exact ⟨rfl, rfl⟩

theorem refEmitB_cons_of_put (lo : KeyBound) (e : IKey × HummockValue)
    (rest : List (IKey × HummockValue)) (v : List Nat)
    (hoor : outOfRange lo e.1.uk = false) (hv : e.2 = .Put v) :
    refEmitB lo (e :: rest) = groupCont lo e.1.uk false v rest := by
  rw [refEmitB_cons, if_neg (fun hq => Bool.noConfusion (hoor.symm.trans hq))]
  unfold groupCont
  rw [applyList_cons_put hv]

theorem refEmitB_cons_of_delete (lo : KeyBound) (e : IKey × HummockValue)
    (rest : List (IKey × HummockValue)) (w : List Nat)
    (hoor : outOfRange lo e.1.uk = false) (hv : e.2 = .Delete) :
    refEmitB lo (e :: rest) = groupCont lo e.1.uk true w rest := by
  rw [refEmitB_cons, if_neg (fun hq => Bool.noConfusion (hoor.symm.trans hq))]
  unfold groupCont
  rw [applyList_cons_delete hv]
  rcases applyList_seed (rest.takeWhile (fun x => x.1.uk == e.1.uk)) [] w with ⟨h1, h2⟩
  by_cases hq : (applyList true w (rest.takeWhile (fun x => x.1.uk == e.1.uk))).1 = true
  · have h3 : (applyList true [] (rest.takeWhile (fun x => x.1.uk == e.1.uk))).1 = true :=
      h1.trans hq
    rw [if_pos h3, if_pos hq]
  · have hqf : (applyList true w (rest.takeWhile (fun x => x.1.uk == e.1.uk))).1 = false :=
      Bool.eq_false_iff.mpr hq
    have h3 : (applyList true [] (rest.takeWhile (fun x => x.1.uk == e.1.uk))).1 = false :=
      h1.trans hqf
    rw [if_neg (fun hc => Bool.noConfusion (h3.symm.trans hc)), if_neg hq, h2 h3]

theorem groupCont_nil (lo : KeyBound) (lk : List Nat) (ld : Bool) (lv : List Nat) :
    groupCont lo lk ld lv [] = if ld then [] else [(lk, lv)] := by
  unfold groupCont
  rw [List.takeWhile_nil, List.dropWhile_nil, refEmitB_nil, List.append_nil]
  cases ld with
  | false => rfl
  | true => rfl

theorem groupCont_dead_head (lo : KeyBound) (lk lv : List Nat) (e : IKey × HummockValue)
    (rest : List (IKey × HummockValue)) (hne : (e.1.uk == lk) = false) :
    groupCont lo lk true lv (e :: rest) = refEmitB lo (e :: rest) := by
  unfold groupCont
  rw [@List.takeWhile_cons_of_neg _ (fun x : IKey × HummockValue => x.1.uk == lk) e rest
      (by simp [hne]),
    @List.dropWhile_cons_of_neg _ (fun x : IKey × HummockValue => x.1.uk == lk) e rest
      (by simp [hne])]
  rw [if_pos (show (applyList true lv ([] : List (IKey × HummockValue))).1 = true from rfl),
    List.nil_append]

theorem groupCont_live_head (lo : KeyBound) (lk lv : List Nat) (e : IKey × HummockValue)
    (rest : List (IKey × HummockValue)) (hne : (e.1.uk == lk) = false) :
    groupCont lo lk false lv (e :: rest) = (lk, lv) :: refEmitB lo (e :: rest) := by
  unfold groupCont
  rw [@List.takeWhile_cons_of_neg _ (fun x : IKey × HummockValue => x.1.uk == lk) e rest
      (by simp [hne]),
    @List.dropWhile_cons_of_neg _ (fun x : IKey × HummockValue => x.1.uk == lk) e rest
      (by simp [hne])]
  rw [if_neg (fun hc => Bool.noConfusion hc)]
  rfl

theorem groupCont_same_put (lo : KeyBound) (lk : List Nat) (ld : Bool) (lv : List Nat)
    (e : IKey × HummockValue) (rest : List (IKey × HummockValue)) (v : List Nat)
    (heq : (e.1.uk == lk) = true) (hv : e.2 = .Put v) :
    groupCont lo lk ld lv (e :: rest) = groupCont lo lk false v rest := by
  unfold groupCont
  rw [@List.takeWhile_cons_of_pos _ (fun x : IKey × HummockValue => x.1.uk == lk) e rest heq,
    @List.dropWhile_cons_of_pos _ (fun x : IKey × HummockValue => x.1.uk == lk) e rest heq,
    applyList_cons_put hv]

theorem groupCont_same_delete (lo : KeyBound) (lk : List Nat) (ld : Bool) (lv : List Nat)
    (e : IKey × HummockValue) (rest : List (IKey × HummockValue))
    (heq : (e.1.uk == lk) = true) (hv : e.2 = .Delete) :
    groupCont lo lk ld lv (e :: rest) = groupCont lo lk true lv rest := by
  unfold groupCont
  rw [@List.takeWhile_cons_of_pos _ (fun x : IKey × HummockValue => x.1.uk == lk) e rest heq,
    @List.dropWhile_cons_of_pos _ (fun x : IKey × HummockValue => x.1.uk == lk) e rest heq,
    applyList_cons_delete hv]

theorem vrem_stop {s : ReverseUserKeyIterator}
    (hp : ¬ s.iterator.pos < s.iterator.entries.length) : vrem s = [] := by
  unfold vrem rem
  rw [List.drop_eq_nil_of_le (Nat.le_of_not_lt hp)]
  rfl

theorem vrem_cons_vis {s : ReverseUserKeyIterator}
    (hp : s.iterator.pos < s.iterator.entries.length)
    (hvis : s.iterator.key.epoch ≤ s.read_epoch) :
    vrem s = curE s :: vrem (advance s) := by
  unfold vrem
  rw [rem_cons s hp, List.filter_cons,
    if_pos (show decide ((curE s).1.epoch ≤ s.read_epoch) = true from decide_eq_true hvis)]
  rfl

theorem vrem_cons_invis {s : ReverseUserKeyIterator}
    (hp : s.iterator.pos < s.iterator.entries.length)
    (hvis : ¬ s.iterator.key.epoch ≤ s.read_epoch) :
    vrem s = vrem (advance s) := by
  unfold vrem
  rw [rem_cons s hp, List.filter_cons,
    if_neg (show ¬ decide ((curE s).1.epoch ≤ s.read_epoch) = true from
      fun hc => hvis (of_decide_eq_true hc))]
  rfl

theorem emitsF_invalid (fuel : Nat) (s : ReverseUserKeyIterator)
    (h : is_valid s = false) : emitsF fuel s = [] := by
  cases fuel with
  | zero => rfl
  | succ n =>
    show (if is_valid s = true then (s.key, s.value) :: emitsF n (next s) else []) = []
    rw [if_neg (fun hc => Bool.noConfusion (h.symm.trans hc))]

theorem emitsF_valid (fuel : Nat) (s : ReverseUserKeyIterator)
    (h : is_valid s = true) :
    emitsF (fuel + 1) s = (s.last_key, s.last_val) :: emitsF fuel (next s) := by
  show (if is_valid s = true then (s.key, s.value) :: emitsF fuel (next s) else []) = _
  rw [if_pos h]
  rfl

theorem next_invalid (s : ReverseUserKeyIterator) (h : is_valid s = false) :
    is_valid (next s) = false := by
  by_cases hv : s.iterator.is_valid = true
  · have hoor : s.out_of_range = true := by
      unfold is_valid at h
      simp only [hv, Bool.true_or, Bool.true_and, Bool.not_eq_false'] at h
      exact h
    have hnext : next s = nextLoop s := by
      unfold next
      rw [if_pos hv]
    rw [hnext]
    unfold is_valid
    rw [nextLoop_oor_mono s hoor]
    simp
  · have hnext : next s = { s with last_delete := true } := by
      unfold next
      rw [if_neg hv]
    rw [hnext]
    unfold is_valid
    have hv0 : s.iterator.is_valid = false := Bool.eq_false_iff.mpr hv
    simp [hv0]

theorem iterate_next_invalid (s : ReverseUserKeyIterator) (h : is_valid s = false) :
    ∀ m : Nat, is_valid (next^[m] s) = false := by
  intro m
  induction m with
  | zero => exact h
  | succ m ih =>
    rw [Function.iterate_succ_apply']
    exact next_invalid _ ih

theorem outFrom_invalid {r : ReverseUserKeyIterator} (h : is_valid r = false) :
    outFrom r = [] := by
  unfold outFrom
  rw [if_neg (fun hc => Bool.noConfusion (h.symm.trans hc))]

theorem outFrom_valid {r : ReverseUserKeyIterator} (h : is_valid r = true) :
    outFrom r = (r.last_key, r.last_val) :: refEmitB r.key_range.1 (vrem r) := by
  unfold outFrom
  rw [if_pos h]

theorem nextLoop_out_stop (s : ReverseUserKeyIterator)
    (hp : ¬ s.iterator.pos < s.iterator.entries.length)
    (hoor0 : s.out_of_range = false) :
    outFrom s = groupCont s.key_range.1 s.last_key s.last_delete s.last_val (vrem s) := by
  rw [vrem_stop hp, groupCont_nil]
  cases hld : s.last_delete with
  | true =>
    have hinv : is_valid s = false := by
      unfold is_valid
      simp [ReverseSortedIterator.is_valid, hld, hp]
    rw [outFrom_invalid hinv, if_pos rfl]
  | false =>
    have hval : is_valid s = true := by
      unfold is_valid
      simp [hld, hoor0]
    rw [outFrom_valid hval, vrem_stop hp, refEmitB_nil,
      if_neg (fun hc => Bool.noConfusion hc)]

/-- The key output lemma for the loop entered in group-resolving mode
(`just_met_new_key` false, in range): from such a state, the run's whole
output is the pending group's continuation followed by the reference scan of
the remaining visible records. -/
theorem nextLoop_out (n : Nat) : ∀ s : ReverseUserKeyIterator, msr s ≤ n →
    sortedDesc s.iterator.entries →
    s.just_met_new_key = false →
    s.out_of_range = false →
    outFrom (nextLoop s) =
      groupCont s.key_range.1 s.last_key s.last_delete s.last_val (vrem s) := by
  induction n with
  | zero =>
    intro s hm hs hjm0 hoor0
    rcases nextLoop_cases s with ⟨hp, he⟩ | ⟨hp, _⟩ | ⟨hp, _⟩ | ⟨hp, _⟩ | ⟨hp, _⟩ |
      ⟨hp, _⟩ | ⟨hp, _⟩ | ⟨hp, _⟩
    · rw [he]
      exact nextLoop_out_stop s hp hoor0
    all_goals (exfalso; unfold msr at hm; omega)
  | succ n ih =>
    intro s hm hs hjm0 hoor0
    unfold msr at hm
    rcases nextLoop_cases s with ⟨hp, he⟩ | ⟨hp, hvis, he⟩ | ⟨hp, hvis, hjm, hoor, he⟩ |
      ⟨hp, hvis, hjm, hoor, he⟩ | ⟨hp, hvis, hjm, hne, hld, he⟩ |
      ⟨hp, hvis, hjm, hne, hld, hoor, he⟩ | ⟨hp, hvis, hjm, hne, hld, hoor, he⟩ |
      ⟨hp, hvis, hjm, hkeq, he⟩
    · rw [he]
      exact nextLoop_out_stop s hp hoor0
    · -- invisible record: skip it, the visible remainder is unchanged
      rw [he, ih (advance s) (by simp; omega) hs hjm0 hoor0,
        vrem_cons_invis hp hvis]
      rfl
    · rw [hjm0] at hjm; exact Bool.noConfusion hjm
    · rw [hjm0] at hjm; exact Bool.noConfusion hjm
    · -- case 2(a): return; the pending group is live, emit it before the rest
      rw [he]
      have hval : is_valid { s with just_met_new_key := true } = true := by
        unfold is_valid
        simp [ReverseSortedIterator.is_valid, hp, hoor0]
      rw [outFrom_valid hval]
      show (s.last_key, s.last_val) :: refEmitB s.key_range.1 (vrem s) =
        groupCont s.key_range.1 s.last_key s.last_delete s.last_val (vrem s)
      have hbne : ((curE s).1.uk == s.last_key) = false :=
        beq_eq_false_iff_ne.mpr (fun hq => hne hq.symm)
      rw [hld, vrem_cons_vis hp hvis, groupCont_live_head _ _ _ _ _ hbne]
    · -- case 2(b), break: dead group, adopted key out of range
      rw [he]
      have hinv :
          is_valid { s with last_key := s.iterator.key.uk, out_of_range := true } = false := by
        unfold is_valid
        simp
      rw [outFrom_invalid hinv]
      have hbne : ((curE s).1.uk == s.last_key) = false :=
        beq_eq_false_iff_ne.mpr (fun hq => hne hq.symm)
      have hoor2 : outOfRange s.key_range.1 (curE s).1.uk = true := hoor
      rw [hld, vrem_cons_vis hp hvis, groupCont_dead_head _ _ _ _ _ hbne,
        refEmitB_cons, if_pos hoor2]
    · -- case 2(b), go: dead group dropped, adopt the new key and resolve it
      rw [he, ih (advance (applyValue { s with last_key := s.iterator.key.uk }))
        (by simp; omega) hs hjm0 hoor0]
      have hbne : ((curE s).1.uk == s.last_key) = false :=
        beq_eq_false_iff_ne.mpr (fun hq => hne hq.symm)
      have hoor2 : outOfRange s.key_range.1 (curE s).1.uk = false := hoor
      conv_rhs => rw [hld, vrem_cons_vis hp hvis, groupCont_dead_head _ _ _ _ _ hbne]
      cases hcv : (curE s).2 with
      | Put v =>
        conv_rhs => rw [refEmitB_cons_of_put _ _ _ v hoor2 hcv]
        have h2 : ({ s with last_key := s.iterator.key.uk } :
            ReverseUserKeyIterator).iterator.value = .Put v := hcv
        rw [applyValue_of_put h2]
        rfl
      | Delete =>
        conv_rhs => rw [refEmitB_cons_of_delete _ _ _ s.last_val hoor2 hcv]
        have h2 : ({ s with last_key := s.iterator.key.uk } :
            ReverseUserKeyIterator).iterator.value = .Delete := hcv
        rw [applyValue_of_delete h2]
        rfl
    · -- case 1: one more version of the pending group
      rw [he, ih (advance (applyValue s)) (by simp; omega) hs hjm0 hoor0,
        vrem_cons_vis hp hvis]
      have hbeq : ((curE s).1.uk == s.last_key) = true := beq_iff_eq.mpr hkeq.symm
      cases hcv : (curE s).2 with
      | Put v =>
        rw [groupCont_same_put _ _ _ _ _ _ v hbeq hcv]
        have h2 : s.iterator.value = .Put v := hcv
        rw [applyValue_of_put h2]
        rfl
      | Delete =>
        rw [groupCont_same_delete _ _ _ _ _ _ hbeq hcv]
        have h2 : s.iterator.value = .Delete := hcv
        rw [applyValue_of_delete h2]
        rfl

/-- From a `just_met_new_key` state on a visible in-range?record, the run's
output is exactly the reference scan of the visible remainder (the adopted
group is resolved starting from scratch). -/
theorem nextLoop_out_jm (s : ReverseUserKeyIterator)
    (hs : sortedDesc s.iterator.entries)
    (hp : s.iterator.pos < s.iterator.entries.length)
    (hvis : s.iterator.key.epoch ≤ s.read_epoch)
    (hjm : s.just_met_new_key = true)
    (hoor0 : s.out_of_range = false) :
    outFrom (nextLoop s) = refEmitB s.key_range.1 (vrem s) := by
  by_cases hoor : outOfRange s.key_range.1 s.iterator.key.uk = true
  · rw [nextLoop_eq_jm_oor s hp hvis hjm hoor]
    have hinv :
        is_valid
          { s with last_key := s.iterator.key.uk, just_met_new_key := false, out_of_range := true }
          = false := by
      unfold is_valid
      simp
    rw [outFrom_invalid hinv]
    have hoor2 : outOfRange s.key_range.1 (curE s).1.uk = true := hoor
    rw [vrem_cons_vis hp hvis, refEmitB_cons, if_pos hoor2]
  · have hoorf : outOfRange s.key_range.1 s.iterator.key.uk = false :=
      Bool.eq_false_iff.mpr hoor
    rw [nextLoop_eq_jm_go s hp hvis hjm hoorf]
    have hres := nextLoop_out
      (msr (advance (applyValue
        { s with last_key := s.iterator.key.uk, just_met_new_key := false })))
      (advance (applyValue
        { s with last_key := s.iterator.key.uk, just_met_new_key := false }))
      le_rfl hs rfl hoor0
    rw [hres]
    have hoor2 : outOfRange s.key_range.1 (curE s).1.uk = false := hoorf
    conv_rhs => rw [vrem_cons_vis hp hvis]
    cases hcv : (curE s).2 with
    | Put v =>
      conv_rhs => rw [refEmitB_cons_of_put _ _ _ v hoor2 hcv]
      have h2 : ({ s with last_key := s.iterator.key.uk, just_met_new_key := false } :
          ReverseUserKeyIterator).iterator.value = .Put v := hcv
      rw [applyValue_of_put h2]
      rfl
    | Delete =>
      conv_rhs => rw [refEmitB_cons_of_delete _ _ _ s.last_val hoor2 hcv]
      have h2 : ({ s with last_key := s.iterator.key.uk, just_met_new_key := false } :
          ReverseUserKeyIterator).iterator.value = .Delete := hcv
      rw [applyValue_of_delete h2]
      rfl

theorem refEmitE_nil (lo : KeyBound) : refEmitE lo [] = [] := rfl

theorem refEmitE_cons_empty {e : IKey × HummockValue} (lo : KeyBound)
    (rest : List (IKey × HummockValue)) (h : e.1.uk = []) :
    refEmitE lo (e :: rest) =
      (if (applyList true [] (e :: rest)).1 then []
       else [([], (applyList true [] (e :: rest)).2)]) := by
  show (if e.1.uk = [] then
      (if (applyList true [] (e :: rest)).1 then []
       else [([], (applyList true [] (e :: rest)).2)])
    else refEmitB lo (e :: rest)) = _
  rw [if_pos h]

theorem refEmitE_cons_ne {e : IKey × HummockValue} (lo : KeyBound)
    (rest : List (IKey × HummockValue)) (h : ¬ e.1.uk = []) :
    refEmitE lo (e :: rest) = refEmitB lo (e :: rest) := by
  show (if e.1.uk = [] then
      (if (applyList true [] (e :: rest)).1 then []
       else [([], (applyList true [] (e :: rest)).2)])
    else refEmitB lo (e :: rest)) = _
  rw [if_neg h]

theorem refEmitE_cons_empty_put (lo : KeyBound) (e : IKey × HummockValue)
    (rest : List (IKey × HummockValue)) (v : List Nat)
    (he : e.1.uk = []) (hv : e.2 = .Put v)
    (hall : ∀ x ∈ rest, (x.1.uk == ([] : List Nat)) = true) :
    refEmitE lo (e :: rest) = groupCont lo [] false v rest := by
  rw [refEmitE_cons_empty lo rest he, applyList_cons_put hv]
  unfold groupCont
  rcases takeWhile_all (fun x : IKey × HummockValue => x.1.uk == ([] : List Nat)) rest hall
    with ⟨htw, hdw⟩
  rw [htw, hdw, refEmitB_nil, List.append_nil]

theorem refEmitE_cons_empty_delete (lo : KeyBound) (e : IKey × HummockValue)
    (rest : List (IKey × HummockValue)) (w : List Nat)
    (he : e.1.uk = []) (hv : e.2 = .Delete)
    (hall : ∀ x ∈ rest, (x.1.uk == ([] : List Nat)) = true) :
    refEmitE lo (e :: rest) = groupCont lo [] true w rest := by
  rw [refEmitE_cons_empty lo rest he, applyList_cons_delete hv]
  unfold groupCont
  rcases takeWhile_all (fun x : IKey × HummockValue => x.1.uk == ([] : List Nat)) rest hall
    with ⟨htw, hdw⟩
  rw [htw, hdw, refEmitB_nil, List.append_nil]
  rcases applyList_seed rest [] w with ⟨h1, h2⟩
  by_cases hq : (applyList true w rest).1 = true
  · have h3 : (applyList true [] rest).1 = true := h1.trans hq
    rw [if_pos h3, if_pos hq]
  · have hqf : (applyList true w rest).1 = false := Bool.eq_false_iff.mpr hq
    have h3 : (applyList true [] rest).1 = false := h1.trans hqf
    rw [if_neg (fun hc => Bool.noConfusion (h3.symm.trans hc)), if_neg hq, h2 h3]

/-- Output of the loop from a freshly `reset` resolution state: exactly the
reference scan including the degenerate empty-user-key head group. -/
theorem nextLoop_out_fresh (n : Nat) : ∀ s : ReverseUserKeyIterator, msr s ≤ n →
    sortedDesc s.iterator.entries →
    s.just_met_new_key = false →
    s.out_of_range = false →
    s.last_key = [] →
    s.last_delete = true →
    outFrom (nextLoop s) = refEmitE s.key_range.1 (vrem s) := by
  induction n with
  | zero =>
    intro s hm hs hjm0 hoor0 hlk hld
    rcases nextLoop_cases s with ⟨hp, he⟩ | ⟨hp, _⟩ | ⟨hp, _⟩ | ⟨hp, _⟩ | ⟨hp, _⟩ |
      ⟨hp, _⟩ | ⟨hp, _⟩ | ⟨hp, _⟩
    · rw [he]
      have hinv : is_valid s = false := by
        unfold is_valid
        simp [ReverseSortedIterator.is_valid, hld, hp]
      rw [outFrom_invalid hinv, vrem_stop hp]
      rfl
    all_goals (exfalso; unfold msr at hm; omega)
  | succ n ih =>
    intro s hm hs hjm0 hoor0 hlk hld
    unfold msr at hm
    rcases nextLoop_cases s with ⟨hp, he⟩ | ⟨hp, hvis, he⟩ | ⟨hp, hvis, hjm, hoor, he⟩ |
      ⟨hp, hvis, hjm, hoor, he⟩ | ⟨hp, hvis, hjm, hne, hldf, he⟩ |
      ⟨hp, hvis, hjm, hne, hldt, hoor, he⟩ | ⟨hp, hvis, hjm, hne, hldt, hoor, he⟩ |
      ⟨hp, hvis, hjm, hkeq, he⟩
    · rw [he]
      have hinv : is_valid s = false := by
        unfold is_valid
        simp [ReverseSortedIterator.is_valid, hld, hp]
      rw [outFrom_invalid hinv, vrem_stop hp]
      rfl
    · rw [he, ih (advance s) (by simp; omega) hs hjm0 hoor0 hlk hld,
        vrem_cons_invis hp hvis]
      rfl
    · rw [hjm0] at hjm; exact Bool.noConfusion hjm
    · rw [hjm0] at hjm; exact Bool.noConfusion hjm
    · rw [hld] at hldf; exact Bool.noConfusion hldf
    · -- the adopted head group is out of range: nothing is emitted
      rw [he]
      have hinv :
          is_valid { s with last_key := s.iterator.key.uk, out_of_range := true } = false := by
        unfold is_valid
        simp
      rw [outFrom_invalid hinv, vrem_cons_vis hp hvis]
      have hnee : ¬ (curE s).1.uk = [] := fun hq => hne (hlk.trans hq.symm)
      rw [refEmitE_cons_ne _ _ hnee]
      have hoor2 : outOfRange s.key_range.1 (curE s).1.uk = true := hoor
      rw [refEmitB_cons, if_pos hoor2]
    · -- adopt the head group and resolve it
      rw [he]
      have hres := nextLoop_out
        (msr (advance (applyValue { s with last_key := s.iterator.key.uk })))
        (advance (applyValue { s with last_key := s.iterator.key.uk }))
        le_rfl hs hjm0 hoor0
      rw [hres]
      have hnee : ¬ (curE s).1.uk = [] := fun hq => hne (hlk.trans hq.symm)
      have hoor2 : outOfRange s.key_range.1 (curE s).1.uk = false := hoor
      conv_rhs => rw [vrem_cons_vis hp hvis, refEmitE_cons_ne _ _ hnee]
      cases hcv : (curE s).2 with
      | Put v =>
        conv_rhs => rw [refEmitB_cons_of_put _ _ _ v hoor2 hcv]
        have h2 : ({ s with last_key := s.iterator.key.uk } :
            ReverseUserKeyIterator).iterator.value = .Put v := hcv
        rw [applyValue_of_put h2]
        rfl
      | Delete =>
        conv_rhs => rw [refEmitB_cons_of_delete _ _ _ s.last_val hoor2 hcv]
        have h2 : ({ s with last_key := s.iterator.key.uk } :
            ReverseUserKeyIterator).iterator.value = .Delete := hcv
        rw [applyValue_of_delete h2]
        rfl
    · -- the head group carries the empty sentinel key itself
      rw [he]
      have hres := nextLoop_out (msr (advance (applyValue s))) (advance (applyValue s))
        le_rfl hs hjm0 hoor0
      rw [hres]
      have hcuk : (curE s).1.uk = [] := hkeq.symm.trans hlk
      have hall : ∀ x ∈ vrem (advance s), (x.1.uk == ([] : List Nat)) = true := by
        intro x hx
        have hx2 : x ∈ rem (advance s) := List.mem_of_mem_filter hx
        have hle := sorted_rem_adv_le hs hp x hx2
        rw [hcuk] at hle
        simp [leBytes_nil_eq hle]
      conv_rhs => rw [vrem_cons_vis hp hvis]
      cases hcv : (curE s).2 with
      | Put v =>
        conv_rhs => rw [refEmitE_cons_empty_put _ _ _ v hcuk hcv hall]
        have h2 : s.iterator.value = .Put v := hcv
        rw [applyValue_of_put h2, hlk]
        rfl
      | Delete =>
        conv_rhs => rw [refEmitE_cons_empty_delete _ _ _ s.last_val hcuk hcv hall]
        have h2 : s.iterator.value = .Delete := hcv
        rw [applyValue_of_delete h2, hlk]
        rfl

theorem nextLoop_msr_le (s : ReverseUserKeyIterator) : msr (nextLoop s) ≤ msr s := by
  have h := nextLoop_frame s
  have h2 := h.2.2.2
  unfold msr
  rw [h.1]
  omega

theorem valid_oor_false {s : ReverseUserKeyIterator} (h : is_valid s = true) :
    s.out_of_range = false := by
  unfold is_valid at h
  simp only [Bool.and_eq_true] at h
  simpa using h.2

theorem next_eq_nextLoop {s : ReverseUserKeyIterator} (h : s.iterator.is_valid = true) :
    next s = nextLoop s := by
  show (if s.iterator.is_valid = true then nextLoop s
    else { s with last_delete := true }) = nextLoop s
  rw [if_pos h]

theorem next_eq_eof {s : ReverseUserKeyIterator} (h : ¬ s.iterator.is_valid = true) :
    next s = { s with last_delete := true } := by
  show (if s.iterator.is_valid = true then nextLoop s
    else { s with last_delete := true }) = _
  rw [if_neg h]

/-- Priming a freshly reset state emits exactly the reference scan of the
records visible ahead of the cursor. -/
theorem next_reset_out (base : ReverseUserKeyIterator)
    (hs : sortedDesc base.iterator.entries) :
    outFrom (next (reset base)) = refEmitE base.key_range.1 (vrem base) := by
  by_cases hv : (reset base).iterator.is_valid = true
  · have hnext : next (reset base) = nextLoop (reset base) := by
      unfold next
      rw [if_pos hv]
    rw [hnext, nextLoop_out_fresh (msr (reset base)) (reset base) le_rfl hs rfl rfl rfl rfl]
    rfl
  · have hnext : next (reset base) = { reset base with last_delete := true } := by
      unfold next
      rw [if_neg hv]
    have hv0 : base.iterator.is_valid = false := Bool.eq_false_iff.mpr hv
    have hinv : is_valid { reset base with last_delete := true } = false := by
      unfold is_valid
      simp [reset, hv0]
    rw [hnext, outFrom_invalid hinv]
    have hp : ¬ base.iterator.pos < base.iterator.entries.length := by
      intro hc
      apply hv
      rw [srcValid_iff]
      exact hc
    rw [vrem_stop hp]
    rfl

/-- Along any scan, with enough fuel the emission sequence from the current
state is exactly `outFrom` of that state. -/
theorem scan_run_out (entries : List (IKey × HummockValue)) (kr : KeyBound × KeyBound)
    (re : Nat) (t : Option (List Nat)) (s₀ : ReverseUserKeyIterator)
    (hs : sortedDesc entries)
    (hst : scanStart (mkIter entries kr re) t = some s₀) :
    ∀ (fuel n : Nat), msr (next^[n] s₀) < fuel →
    emitsF fuel (next^[n] s₀) = outFrom (next^[n] s₀) := by
  intro fuel
  induction fuel with
  | zero =>
    intro n h
    exact absurd h (Nat.not_lt_zero _)
  | succ fuel ih =>
    intro n hfuel
    by_cases hvalid : is_valid (next^[n] s₀) = true
    · have hfr := scan_reach entries kr re t s₀ n hs hst
      have hsorted : sortedDesc (next^[n] s₀).iterator.entries := by
        rw [hfr.1]
        exact hs
      have htail : emitsF fuel (next (next^[n] s₀)) =
          refEmitB (next^[n] s₀).key_range.1 (vrem (next^[n] s₀)) := by
        by_cases hsrc : (next^[n] s₀).iterator.is_valid = true
        · have hoor0 : (next^[n] s₀).out_of_range = false := valid_oor_false hvalid
          have hjm : (next^[n] s₀).just_met_new_key = true ∧
              (next^[n] s₀).last_delete = false := by
            obtain ⟨P, hP⟩ := scan_state_is_next entries kr re t s₀ n hst
            have hshape := next_ret P
            rw [← hP] at hshape
            rcases hshape with h1 | h1 | h1
            · rw [hoor0] at h1
              exact absurd h1 Bool.false_ne_true
            · rw [srcValid_iff] at hsrc
              exact absurd hsrc h1
            · exact ⟨h1.2, h1.1⟩
          obtain ⟨hp2, hvis, hlt, _⟩ := hfr.2.2.1 hjm.1
          have hnext : next (next^[n] s₀) = nextLoop (next^[n] s₀) := next_eq_nextLoop hsrc
          have hout : outFrom (next (next^[n] s₀)) =
              refEmitB (next^[n] s₀).key_range.1 (vrem (next^[n] s₀)) := by
            rw [hnext]
            exact nextLoop_out_jm _ hsorted hp2 hvis hjm.1 hoor0
          by_cases hoorc :
              outOfRange (next^[n] s₀).key_range.1 (next^[n] s₀).iterator.key.uk = true
          · have hform := nextLoop_eq_jm_oor _ hp2 hvis hjm.1 hoorc
            have hinv : is_valid (next (next^[n] s₀)) = false := by
              rw [hnext, hform]
              unfold is_valid
              simp
            rw [emitsF_invalid fuel _ hinv]
            have hoor2 :
                outOfRange (next^[n] s₀).key_range.1 (curE (next^[n] s₀)).1.uk = true := hoorc
            rw [vrem_cons_vis hp2 hvis, refEmitB_cons, if_pos hoor2]
          · have hoorf :
                outOfRange (next^[n] s₀).key_range.1 (next^[n] s₀).iterator.key.uk = false :=
              Bool.eq_false_iff.mpr hoorc
            have hform := nextLoop_eq_jm_go _ hp2 hvis hjm.1 hoorf
            have hmsr : msr (next (next^[n] s₀)) < msr (next^[n] s₀) := by
              rw [hnext, hform]
              refine Nat.lt_of_le_of_lt (nextLoop_msr_le _) ?_
              show (next^[n] s₀).iterator.entries.length - ((next^[n] s₀).iterator.pos + 1) <
                msr (next^[n] s₀)
              unfold msr
              omega
            have hn1 : next^[n + 1] s₀ = next (next^[n] s₀) :=
              Function.iterate_succ_apply' next n s₀
            have hres := ih (n + 1) (by rw [hn1]; omega)
            rw [hn1] at hres
            rw [hres, hout]
        · have hp2 :
              ¬ (next^[n] s₀).iterator.pos < (next^[n] s₀).iterator.entries.length := by
            intro hc
            apply hsrc
            rw [srcValid_iff]
            exact hc
          rw [vrem_stop hp2, refEmitB_nil]
          have hnext : next (next^[n] s₀) = { next^[n] s₀ with last_delete := true } :=
            next_eq_eof hsrc
          have hv0 : (next^[n] s₀).iterator.is_valid = false := Bool.eq_false_iff.mpr hsrc
          have hinv : is_valid (next (next^[n] s₀)) = false := by
            rw [hnext]
            unfold is_valid
            simp [hv0]
          exact emitsF_invalid fuel _ hinv
      rw [emitsF_valid fuel _ hvalid, outFrom_valid hvalid, htail]
    · have hinvf : is_valid (next^[n] s₀) = false := Bool.eq_false_iff.mpr hvalid
      rw [emitsF_invalid _ _ hinvf, outFrom_invalid hinvf]

theorem emitsF_sublist : ∀ (f g : Nat), f ≤ g → ∀ s : ReverseUserKeyIterator,
    List.Sublist (emitsF f s) (emitsF g s) := by
  intro f
  induction f with
  | zero =>
    intro g _ s
    exact List.nil_sublist _
  | succ f ih =>
    intro g hfg s
    cases g with
    | zero => exact absurd hfg (by omega)
    | succ g =>
      by_cases hv : is_valid s = true
      · rw [emitsF_valid f s hv, emitsF_valid g s hv]
        exact List.Sublist.cons₂ _ (ih g (Nat.le_of_succ_le_succ hfg) (next s))
      · rw [emitsF_invalid _ _ (Bool.eq_false_iff.mpr hv),
          emitsF_invalid _ _ (Bool.eq_false_iff.mpr hv)]

/-- Whatever `key()`/`value()` show at any valid point of a run appears in
the run's emission sequence. -/
theorem mem_emits_of_valid : ∀ (n : Nat) (s : ReverseUserKeyIterator),
    is_valid (next^[n] s) = true →
    ((next^[n] s).last_key, (next^[n] s).last_val) ∈ emitsF (n + 1) s := by
  intro n
  induction n with
  | zero =>
    intro s h
    rw [emitsF_valid 0 s h]
    exact List.mem_cons_self _ _
  | succ n ih =>
    intro s h
    have h0 : is_valid s = true := by
      by_contra hc
      have h2 := iterate_next_invalid s (Bool.eq_false_iff.mpr hc) (n + 1)
      rw [h2] at h
      exact Bool.noConfusion h
    rw [emitsF_valid (n + 1) s h0]
    have h2 : next^[n + 1] s = next^[n] (next s) := Function.iterate_succ_apply next n s
    rw [h2] at h ⊢
    exact List.mem_cons_of_mem _ (ih (next s) h)

theorem ikLe_of_ikLt_of_ikLe {a b c : IKey} (hab : ikLt a b = true)
    (hbc : ikLe b c = true) : ikLe a c = true := by
  unfold ikLe at hbc ⊢
  simp only [Bool.not_eq_true'] at hbc ⊢
  by_contra hc
  have hca : ikLt c a = true := by simpa using hc
  have h2 := ikLt_trans hca hab
  rw [hbc] at h2
  exact Bool.noConfusion h2

/-- Reverse `seek` to the encoded target `(c, 0)` keeps exactly the records
whose user key is `≤ c`: positions at the boundary found by `findIdx`. -/
theorem ikLe_target0 (a : IKey) (c : List Nat) : ikLe a ⟨c, 0⟩ = leBytes a.uk c := by
  simp [ikLe, ikLt, leBytes]

theorem drop_findIdx_eq_filter (tgt : IKey) :
    ∀ l : List (IKey × HummockValue), sortedDesc l →
    l.drop (l.findIdx (fun e => ikLe e.1 tgt)) = l.filter (fun e => ikLe e.1 tgt) := by
  intro l
  induction l with
  | nil => intro _; rfl
  | cons e rest ih =>
    intro hs
    by_cases h : ikLe e.1 tgt = true
    · rw [List.findIdx_cons, h, cond_true, List.drop_zero,
        @List.filter_cons_of_pos _ (fun e : IKey × HummockValue => ikLe e.1 tgt) e rest h]
      have hall : ∀ x ∈ rest, ikLe x.1 tgt = true :=
        fun x hx => ikLe_of_ikLt_of_ikLe ((List.pairwise_cons.mp hs).1 x hx) h
      rw [List.filter_eq_self.mpr hall]
    · have hf : ikLe e.1 tgt = false := Bool.eq_false_iff.mpr h
      rw [List.findIdx_cons, hf, cond_false, List.drop_succ_cons,
        ih (List.pairwise_cons.mp hs).2,
        @List.filter_cons_of_neg _ (fun e : IKey × HummockValue => ikLe e.1 tgt) e rest h]

/-- Where a scan start positions the source: after both `rewind` and
`seek u` the records ahead of the cursor are exactly those whose user key
satisfies the scan's effective upper limit. -/
theorem scanStart_drop (entries : List (IKey × HummockValue))
    (kr : KeyBound × KeyBound) (re : Nat) (t : Option (List Nat))
    (s₀ : ReverseUserKeyIterator)
    (hs : sortedDesc entries)
    (hst : scanStart (mkIter entries kr re) t = some s₀) :
    ∃ p : Nat,
      s₀ = next (reset { mkIter entries kr re with iterator := ⟨entries, p⟩ }) ∧
      entries.drop p = (match startBound kr.2 t with
        | none => entries
        | some c => entries.filter (fun e => leBytes e.1.uk c)) := by
  obtain ⟨lo, up⟩ := kr
  rcases t with - | u
  · cases up with
    | Included hi =>
      have hv : scanStart (mkIter entries (lo, .Included hi) re) none =
          some (next (reset { mkIter entries (lo, .Included hi) re with
            iterator := ⟨entries, entries.findIdx (fun e => ikLe e.1 ⟨hi, 0⟩)⟩ })) := rfl
      rw [hv] at hst
      refine ⟨entries.findIdx (fun e => ikLe e.1 ⟨hi, 0⟩), (Option.some.inj hst).symm, ?_⟩
      rw [drop_findIdx_eq_filter ⟨hi, 0⟩ entries hs]
      exact List.filter_congr (fun e _ => ikLe_target0 e.1 hi)
    | Excluded hi =>
      have hv : scanStart (mkIter entries (lo, .Excluded hi) re) none =
          (none : Option ReverseUserKeyIterator) := rfl
      rw [hv] at hst
      exact Option.noConfusion hst
    | Unbounded =>
      have hv : scanStart (mkIter entries (lo, .Unbounded) re) none =
          some (next (reset { mkIter entries (lo, .Unbounded) re with
            iterator := ⟨entries, 0⟩ })) := rfl
      rw [hv] at hst
      exact ⟨0, (Option.some.inj hst).symm, rfl⟩
  · cases up with
    | Included hi =>
      have hv : scanStart (mkIter entries (lo, .Included hi) re) (some u) =
          some (next (reset { mkIter entries (lo, .Included hi) re with
            iterator := ⟨entries, entries.findIdx
              (fun e => ikLe e.1 ⟨if ltBytes hi u then hi else u, 0⟩)⟩ })) := rfl
      rw [hv] at hst
      refine ⟨entries.findIdx (fun e => ikLe e.1 ⟨if ltBytes hi u then hi else u, 0⟩),
        (Option.some.inj hst).symm, ?_⟩
      rw [drop_findIdx_eq_filter ⟨if ltBytes hi u then hi else u, 0⟩ entries hs]
      exact List.filter_congr (fun e _ => ikLe_target0 e.1 (if ltBytes hi u then hi else u))
    | Excluded hi =>
      have hv : scanStart (mkIter entries (lo, .Excluded hi) re) (some u) =
          (none : Option ReverseUserKeyIterator) := rfl
      rw [hv] at hst
      exact Option.noConfusion hst
    | Unbounded =>
      have hv : scanStart (mkIter entries (lo, .Unbounded) re) (some u) =
          some (next (reset { mkIter entries (lo, .Unbounded) re with
            iterator := ⟨entries, entries.findIdx (fun e => ikLe e.1 ⟨u, 0⟩)⟩ })) := rfl
      rw [hv] at hst
      refine ⟨entries.findIdx (fun e => ikLe e.1 ⟨u, 0⟩), (Option.some.inj hst).symm, ?_⟩
      rw [drop_findIdx_eq_filter ⟨u, 0⟩ entries hs]
      exact List.filter_congr (fun e _ => ikLe_target0 e.1 u)

/-- Keys within the effective limit resolve the same against the restricted
stream as against the full one. -/
theorem groupRes_vis_filter_le (entries : List (IKey × HummockValue)) (re : Nat)
    (c k : List Nat) (hkc : leBytes k c = true) :
    groupRes k (visibles re (entries.filter (fun e => leBytes e.1.uk c))) =
      groupRes k (visibles re entries) := by
  unfold groupRes visibles
  refine congrArg (applyList true []) ?_
  rw [List.filter_filter, List.filter_filter, List.filter_filter]
  refine List.filter_congr ?_
  intro a _
  by_cases hK : (a.1.uk == k) = true
  · have ha : a.1.uk = k := by simpa using hK
    have hP : leBytes a.1.uk c = true := by rw [ha]; exact hkc
    simp [hK, hP]
  · have hK0 : (a.1.uk == k) = false := Bool.eq_false_iff.mpr hK
    simp [hK0]

/-- Keys beyond the effective limit are absent from the restricted stream. -/
theorem groupRes_vis_filter_gt (entries : List (IKey × HummockValue)) (re : Nat)
    (c k : List Nat) (hkc : leBytes k c = false) :
    (groupRes k (visibles re (entries.filter (fun e => leBytes e.1.uk c)))).1 = true := by
  have hL : (visibles re (entries.filter (fun e => leBytes e.1.uk c))).filter
      (fun x => x.1.uk == k) = [] := by
    rw [List.filter_eq_nil_iff]
    intro a ha
    have ha2 : a ∈ entries.filter (fun e => leBytes e.1.uk c) := List.mem_of_mem_filter ha
    have hP : leBytes a.1.uk c = true := by simpa using (List.mem_filter.mp ha2).2
    intro hK
    have hak : a.1.uk = k := by simpa using hK
    rw [hak] at hP
    rw [hP] at hkc
    exact Bool.noConfusion hkc
  unfold groupRes
  rw [hL]
  rfl

/-- The central scan characterization: a record `(k, v)` is emitted by a
`rewind`- or `seek`-initiated run (with enough fuel to drain it) iff `k`
respects the lower bound, `k` respects the start's effective upper limit,
and the newest visible version of `k` is a `Put` of `v`. -/
theorem scan_mem_iff (entries : List (IKey × HummockValue))
    (kr : KeyBound × KeyBound) (re : Nat) (t : Option (List Nat))
    (s₀ : ReverseUserKeyIterator) (fuel : Nat) (k v : List Nat)
    (hs : sortedDesc entries) (hne : nonemptyUks entries)
    (hst : scanStart (mkIter entries kr re) t = some s₀)
    (hfuel : entries.length < fuel) :
    ((k, v) ∈ emitsF fuel s₀ ↔
      outOfRange kr.1 k = false ∧
      (∀ c, startBound kr.2 t = some c → leBytes k c = true) ∧
      newestVisiblePut entries k re = some v) := by
  obtain ⟨p, hps, hdrop⟩ := scanStart_drop entries kr re t s₀ hs hst
  have hent : s₀.iterator.entries = entries := (scan_reach entries kr re t s₀ 0 hs hst).1
  have hms : msr s₀ ≤ entries.length := by
    unfold msr
    rw [hent]
    omega
  have hrun : emitsF fuel s₀ = outFrom s₀ :=
    scan_run_out entries kr re t s₀ hs hst fuel 0 (by show msr s₀ < fuel; omega)
  have hout : outFrom s₀ = refEmitE kr.1 (visibles re (entries.drop p)) := by
    rw [hps, next_reset_out { mkIter entries kr re with iterator := ⟨entries, p⟩ } hs]
    rfl
  set L := visibles re (entries.drop p) with hL
  have hsubL : List.Sublist L entries :=
    (List.filter_sublist _).trans (List.drop_sublist p entries)
  have hneL : ∀ e ∈ L, ¬ e.1.uk = [] := fun e heL => hne e (hsubL.mem heL)
  have hEB : refEmitE kr.1 L = refEmitB kr.1 L := by
    cases hc : L with
    | nil => rw [refEmitE_nil, refEmitB_nil]
    | cons e rest =>
      exact refEmitE_cons_ne _ _ (hneL e (by rw [hc]; exact List.mem_cons_self _ _))
  have hsorted : ukSorted L := ukSorted_of_sortedDesc (List.Pairwise.sublist hsubL hs)
  rw [hrun, hout, hEB, refEmitB_mem_iff kr.1 L.length L (Nat.le_refl _) hsorted k v]
  rcases hsb : startBound kr.2 t with - | c
  · have hdrop2 : entries.drop p = entries := by
      rw [hsb] at hdrop
      exact hdrop
    rw [hL, hdrop2]
    constructor
    · rintro ⟨h1, h2, h3⟩
      refine ⟨h1, ?_, (groupRes_visibles entries hs k re v).mp ⟨h2, h3⟩⟩
      intro c hc
      exact Option.noConfusion hc
    · rintro ⟨h1, _, h3⟩
      rcases (groupRes_visibles entries hs k re v).mpr h3 with ⟨h4, h5⟩
      exact ⟨h1, h4, h5⟩
  · have hdrop2 : entries.drop p = entries.filter (fun e => leBytes e.1.uk c) := by
      rw [hsb] at hdrop
      exact hdrop
    rw [hL, hdrop2]
    by_cases hkc : leBytes k c = true
    · rw [groupRes_vis_filter_le entries re c k hkc]
      constructor
      · rintro ⟨h1, h2, h3⟩
        refine ⟨h1, ?_, (groupRes_visibles entries hs k re v).mp ⟨h2, h3⟩⟩
        intro c2 hc2
        rw [← Option.some.inj hc2]
        exact hkc
      · rintro ⟨h1, _, h3⟩
        rcases (groupRes_visibles entries hs k re v).mpr h3 with ⟨h4, h5⟩
        exact ⟨h1, h4, h5⟩
    · have hkcf : leBytes k c = false := Bool.eq_false_iff.mpr hkc
      constructor
      · rintro ⟨_, h2, _⟩
        rw [groupRes_vis_filter_gt entries re c k hkcf] at h2
        exact Bool.noConfusion h2
      · rintro ⟨_, h2, _⟩
        exact absurd (h2 c rfl) hkc

theorem refEmitE_keys_desc (lo : KeyBound) (l : List (IKey × HummockValue))
    (hs : ukSorted l) :
    List.Pairwise (fun a b => ltBytes b a = true) ((refEmitE lo l).map Prod.fst) := by
  cases l with
  | nil => rw [refEmitE_nil]; exact List.Pairwise.nil
  | cons e rest =>
    by_cases hc : e.1.uk = []
    · rw [refEmitE_cons_empty lo rest hc]
      by_cases hq : (applyList true [] (e :: rest)).1 = true
      · rw [if_pos hq]; exact List.Pairwise.nil
      · rw [if_neg hq]
        simp
    · rw [refEmitE_cons_ne lo rest hc]
      exact refEmitB_keys_desc lo (e :: rest).length (e :: rest) (Nat.le_refl _) hs

theorem refEmitE_mem_key (lo : KeyBound) (l : List (IKey × HummockValue))
    (k v : List Nat) (hm : (k, v) ∈ refEmitE lo l) :
    k = [] ∨ ∃ e ∈ l, e.1.uk = k := by
  cases l with
  | nil => rw [refEmitE_nil] at hm; exact absurd hm (List.not_mem_nil _)
  | cons e rest =>
    by_cases he : e.1.uk = []
    · rw [refEmitE_cons_empty lo rest he] at hm
      by_cases hq : (applyList true [] (e :: rest)).1 = true
      · rw [if_pos hq] at hm
        exact absurd hm (List.not_mem_nil _)
      · rw [if_neg hq] at hm
        have h2 := List.mem_singleton.mp hm
        exact Or.inl (congrArg Prod.fst h2)
    · rw [refEmitE_cons_ne lo rest he] at hm
      rcases refEmitB_mem_key lo (e :: rest).length _ (Nat.le_refl _) _ _ hm with ⟨h2, _⟩
      exact Or.inr h2

/-- Any scan's key sequence is strictly descending, for any fuel. -/
theorem scan_keys_desc (entries : List (IKey × HummockValue)) (kr : KeyBound × KeyBound)
    (re : Nat) (t : Option (List Nat)) (s₀ : ReverseUserKeyIterator) (fuel : Nat)
    (hs : sortedDesc entries)
    (hst : scanStart (mkIter entries kr re) t = some s₀) :
    List.Pairwise (fun a b => ltBytes b a = true) (runKeys fuel s₀) := by
  obtain ⟨p, hps, hdrop⟩ := scanStart_drop entries kr re t s₀ hs hst
  have hent : s₀.iterator.entries = entries := (scan_reach entries kr re t s₀ 0 hs hst).1
  have hms : msr s₀ ≤ entries.length := by
    unfold msr
    rw [hent]
    omega
  have hrun : emitsF (fuel + entries.length + 1) s₀ = outFrom s₀ :=
    scan_run_out entries kr re t s₀ hs hst (fuel + entries.length + 1) 0
      (by show msr s₀ < fuel + entries.length + 1; omega)
  have hout : outFrom s₀ = refEmitE kr.1 (visibles re (entries.drop p)) := by
    rw [hps, next_reset_out { mkIter entries kr re with iterator := ⟨entries, p⟩ } hs]
    rfl
  have hsubL : List.Sublist (visibles re (entries.drop p)) entries :=
    (List.filter_sublist _).trans (List.drop_sublist p entries)
  have hPW : List.Pairwise (fun a b => ltBytes b a = true) ((outFrom s₀).map Prod.fst) := by
    rw [hout]
    exact refEmitE_keys_desc kr.1 _ (ukSorted_of_sortedDesc (List.Pairwise.sublist hsubL hs))
  have hsub : List.Sublist (emitsF fuel s₀) (emitsF (fuel + entries.length + 1) s₀) :=
    emitsF_sublist fuel _ (by omega) s₀
  have hsub2 : List.Sublist ((emitsF fuel s₀).map Prod.fst)
      ((outFrom s₀).map Prod.fst) := by
    rw [← hrun]
    exact List.Sublist.map _ hsub
  exact List.Pairwise.sublist hsub2 hPW

/-- All keys a `seek`- or bounded-`rewind`-initiated scan emits respect the
start's effective upper limit. -/
theorem scan_keys_le (entries : List (IKey × HummockValue)) (kr : KeyBound × KeyBound)
    (re : Nat) (t : Option (List Nat)) (s₀ : ReverseUserKeyIterator) (fuel : Nat)
    (c : List Nat)
    (hs : sortedDesc entries)
    (hst : scanStart (mkIter entries kr re) t = some s₀)
    (hsb : startBound kr.2 t = some c) :
    ∀ x ∈ runKeys fuel s₀, leBytes x c = true := by
  obtain ⟨p, hps, hdrop⟩ := scanStart_drop entries kr re t s₀ hs hst
  have hdrop2 : entries.drop p = entries.filter (fun e => leBytes e.1.uk c) := by
    rw [hsb] at hdrop
    exact hdrop
  have hent : s₀.iterator.entries = entries := (scan_reach entries kr re t s₀ 0 hs hst).1
  have hms : msr s₀ ≤ entries.length := by
    unfold msr
    rw [hent]
    omega
  have hrun : emitsF (fuel + entries.length + 1) s₀ = outFrom s₀ :=
    scan_run_out entries kr re t s₀ hs hst (fuel + entries.length + 1) 0
      (by show msr s₀ < fuel + entries.length + 1; omega)
  have hout : outFrom s₀ = refEmitE kr.1 (visibles re (entries.drop p)) := by
    rw [hps, next_reset_out { mkIter entries kr re with iterator := ⟨entries, p⟩ } hs]
    rfl
  intro x hx
  unfold runKeys at hx
  rcases List.mem_map.mp hx with ⟨pr, hpr, hprx⟩
  have hpr2 := (emitsF_sublist fuel (fuel + entries.length + 1) (by omega) s₀).mem hpr
  rw [hrun, hout] at hpr2
  rcases pr with ⟨xk, xv⟩
  rcases refEmitE_mem_key kr.1 _ xk xv hpr2 with h1 | ⟨e, he, hek⟩
  · rw [← hprx]
    show leBytes xk c = true
    rw [h1]
    exact leBytes_nil c
  · have he2 : e ∈ entries.drop p := List.mem_of_mem_filter he
    rw [hdrop2] at he2
    have hP : leBytes e.1.uk c = true := by simpa using (List.mem_filter.mp he2).2
    rw [← hprx]
    show leBytes xk c = true
    rw [← hek]
    exact hP

/-- Claim C1 (amended): over a strictly descending stream whose user keys are
all nonempty, for every key range, snapshot and scan start, `(k, v)` is
emitted iff `k` is inside the lower bound, `k` respects the scan start's
effective upper limit (the `Included` bound for `rewind`, the clamped target
for `seek`), and the newest version of `k` visible at `read_epoch` is a
`Put` of exactly `v`.  In particular no emitted record's epoch exceeds
`read_epoch`, and a key whose newest visible version is a `Delete` is never
emitted.  Without the nonempty-key proviso the claim is false: the
`last_key` sentinel can leak an out-of-bounds empty key (see the
counterexample). -/
theorem c1_emitted_iff_newest_visible_put (entries : List (IKey × HummockValue))
    (kr : KeyBound × KeyBound) (re : Nat) (t : Option (List Nat))
    (s₀ : ReverseUserKeyIterator) (fuel : Nat) (k v : List Nat)
    (hs : sortedDesc entries) (hne : nonemptyUks entries)
    (hst : scanStart (mkIter entries kr re) t = some s₀)
    (hfuel : entries.length < fuel) :
    ((k, v) ∈ emitsF fuel s₀ ↔
      outOfRange kr.1 k = false ∧
      (∀ c, startBound kr.2 t = some c → leBytes k c = true) ∧
      newestVisiblePut entries k re = some v) :=
  scan_mem_iff entries kr re t s₀ fuel k v hs hne hst hfuel

theorem c1_witness :
    ∃ s₀, scanStart (mkIter [(⟨[2], 3⟩, HummockValue.Put [7]), (⟨[1], 1⟩, HummockValue.Put [8])]
        (KeyBound.Included [1], KeyBound.Included [9]) 5) none = some s₀ ∧
      ([2], [7]) ∈ emitsF 3 s₀ := by
  refine ⟨_, rfl, ?_⟩
  have h := c1_emitted_iff_newest_visible_put
    [(⟨[2], 3⟩, HummockValue.Put [7]), (⟨[1], 1⟩, HummockValue.Put [8])]
    (KeyBound.Included [1], KeyBound.Included [9]) 5 none _ 3 [2] [7]
    (by decide) (by decide) rfl (by decide)
  refine h.mpr ⟨by decide, ?_, by decide⟩
  intro c hc
  have h2 : [9] = c := Option.some.inj hc
  rw [← h2]
  decide

theorem c1_counterexample :
    ∃ s₀, scanStart (mkIter [(⟨[], 5⟩, HummockValue.Put [7])]
        (KeyBound.Included [1], KeyBound.Unbounded) 10) none = some s₀ ∧
      ([], [7]) ∈ emitsF 2 s₀ ∧
      outOfRange (KeyBound.Included [1]) [] = true :=
  ⟨_, rfl, by decide, by decide⟩

/-- Claim C3: along any single `rewind`- or `seek`-initiated run, the user
keys returned by `key()` at the successive valid positions are strictly
decreasing lexicographically, hence pairwise distinct — in particular there
are no consecutive duplicates. -/
theorem c3_keys_strictly_descending (entries : List (IKey × HummockValue))
    (kr : KeyBound × KeyBound) (re : Nat) (t : Option (List Nat))
    (s₀ : ReverseUserKeyIterator) (fuel : Nat)
    (hs : sortedDesc entries)
    (hst : scanStart (mkIter entries kr re) t = some s₀) :
    List.Pairwise (fun a b => ltBytes b a = true) (runKeys fuel s₀) ∧
    List.Pairwise (fun a b => a ≠ b) (runKeys fuel s₀) := by
  have h := scan_keys_desc entries kr re t s₀ fuel hs hst
  refine ⟨h, List.Pairwise.imp ?_ h⟩
  intro a b hab hq
  rw [hq, ltBytes_irrefl] at hab
  exact Bool.noConfusion hab

theorem c3_witness :
    ∃ s₀, scanStart (mkIter [(⟨[2], 1⟩, HummockValue.Put [5]), (⟨[1], 1⟩, HummockValue.Put [6])]
        (KeyBound.Unbounded, KeyBound.Unbounded) 5) none = some s₀ ∧
      (List.Pairwise (fun a b => ltBytes b a = true) (runKeys 3 s₀) ∧
       List.Pairwise (fun a b => a ≠ b) (runKeys 3 s₀)) :=
  ⟨_, rfl, c3_keys_strictly_descending
    [(⟨[2], 1⟩, HummockValue.Put [5]), (⟨[1], 1⟩, HummockValue.Put [6])]
    (KeyBound.Unbounded, KeyBound.Unbounded) 5 none _ 3 (by decide) rfl⟩

/-- Claim C4 (amended): over a stream with nonempty user keys, in every
reachable state with `is_valid()` true, `last_key` is nonempty,
`last_delete` is false and `last_key` lies inside the key range (both the
lower bound and the upper bound); the lower-bound out-of-range predicate is
definitionally `uk < lo` for `Included lo`, `uk ≤ lo` for `Excluded lo`, and
never for `Unbounded`.  Without the nonempty-key proviso a valid state can
hold the empty sentinel `last_key` outside the range (see the
counterexample). -/
theorem c4_valid_state_in_bounds (entries : List (IKey × HummockValue))
    (kr : KeyBound × KeyBound) (re : Nat) (t : Option (List Nat))
    (s₀ : ReverseUserKeyIterator) (n : Nat)
    (hs : sortedDesc entries) (hne : nonemptyUks entries)
    (hst : scanStart (mkIter entries kr re) t = some s₀)
    (hv : is_valid (next^[n] s₀) = true) :
    (next^[n] s₀).last_key ≠ [] ∧
    (next^[n] s₀).last_delete = false ∧
    outOfRange kr.1 (next^[n] s₀).last_key = false ∧
    inUpper kr.2 (next^[n] s₀).last_key ∧
    (∀ lo key, outOfRange (KeyBound.Included lo) key = ltBytes key lo) ∧
    (∀ lo key, outOfRange (KeyBound.Excluded lo) key = leBytes key lo) ∧
    (∀ key, outOfRange KeyBound.Unbounded key = false) := by
  obtain ⟨lo, up⟩ := kr
  have hld : (next^[n] s₀).last_delete = false := by
    obtain ⟨P, hP⟩ := scan_state_is_next entries (lo, up) re t s₀ n hst
    have hsh := next_ret P
    rw [← hP] at hsh
    rcases hsh with h1 | h1 | h1
    · rw [valid_oor_false hv] at h1
      exact Bool.noConfusion h1
    · have hsv : (next^[n] s₀).iterator.is_valid = false := by
        rcases Bool.eq_false_or_eq_true ((next^[n] s₀).iterator.is_valid) with h2 | h2
        · rw [srcValid_iff] at h2
          exact absurd h2 h1
        · exact h2
      unfold is_valid at hv
      rw [hsv] at hv
      simp only [Bool.false_or, Bool.and_eq_true, Bool.not_eq_true'] at hv
      exact hv.1
    · exact h1.1
  have hmem := mem_emits_of_valid n s₀ hv
  have hsub := emitsF_sublist (n + 1) (n + entries.length + 2) (by omega) s₀
  have hmem2 := hsub.mem hmem
  have hiff := scan_mem_iff entries (lo, up) re t s₀ (n + entries.length + 2)
    (next^[n] s₀).last_key (next^[n] s₀).last_val hs hne hst (by omega)
  rcases hiff.mp hmem2 with ⟨hoor, hub, hnv⟩
  have hkne : (next^[n] s₀).last_key ≠ [] := by
    unfold newestVisiblePut at hnv
    rcases hnvv : newestVisible entries (next^[n] s₀).last_key re with - | x
    · rw [hnvv] at hnv
      exact Option.noConfusion hnv
    · rw [newestVisible_getLast entries hs _ re] at hnvv
      have hxmem := List.mem_of_getLast?_eq_some hnvv
      rcases List.mem_filter.mp hxmem with ⟨hxe, hxp⟩
      have hxk : x.1.uk = (next^[n] s₀).last_key := by
        simp only [Bool.and_eq_true, beq_iff_eq] at hxp
        exact hxp.1
      intro hq
      exact hne x hxe (hxk.trans hq)
  refine ⟨hkne, hld, hoor, ?_, fun _ _ => rfl, fun _ _ => rfl, fun _ => rfl⟩
  cases up with
  | Included hi =>
    rcases t with - | u
    · exact hub hi rfl
    · have hc := hub (if ltBytes hi u then hi else u) rfl
      show leBytes (next^[n] s₀).last_key hi = true
      by_cases hlt : ltBytes hi u = true
      · rw [if_pos hlt] at hc
        exact hc
      · rw [if_neg hlt] at hc
        have hf : ltBytes hi u = false := Bool.eq_false_iff.mpr hlt
        have hle : leBytes u hi = true := by simp [leBytes, hf]
        exact leBytes_trans hc hle
  | Excluded hi =>
    exfalso
    rcases t with - | u
    · rw [show scanStart (mkIter entries (lo, KeyBound.Excluded hi) re) none = none from rfl]
        at hst
      exact Option.noConfusion hst
    · rw [show scanStart (mkIter entries (lo, KeyBound.Excluded hi) re) (some u) = none
        from rfl] at hst
      exact Option.noConfusion hst
  | Unbounded => exact trivial

theorem c4_witness :
    ∃ s₀, scanStart (mkIter [(⟨[3], 1⟩, HummockValue.Put [9])]
        (KeyBound.Included [1], KeyBound.Unbounded) 5) none = some s₀ ∧
      ((next^[0] s₀).last_key ≠ [] ∧
       (next^[0] s₀).last_delete = false ∧
       outOfRange (KeyBound.Included [1]) (next^[0] s₀).last_key = false ∧
       inUpper KeyBound.Unbounded (next^[0] s₀).last_key ∧
       (∀ lo key, outOfRange (KeyBound.Included lo) key = ltBytes key lo) ∧
       (∀ lo key, outOfRange (KeyBound.Excluded lo) key = leBytes key lo) ∧
       (∀ key, outOfRange KeyBound.Unbounded key = false)) :=
  ⟨_, rfl, c4_valid_state_in_bounds [(⟨[3], 1⟩, HummockValue.Put [9])]
    (KeyBound.Included [1], KeyBound.Unbounded) 5 none _ 0
    (by decide) (by decide) rfl (by decide)⟩

theorem c4_counterexample :
    ∃ s₀, scanStart (mkIter [(⟨[], 5⟩, HummockValue.Put [7])]
        (KeyBound.Included [1], KeyBound.Unbounded) 10) none = some s₀ ∧
      is_valid s₀ = true ∧ s₀.last_key = [] ∧
      outOfRange (KeyBound.Included [1]) s₀.last_key = true :=
  ⟨_, rfl, by decide, by decide, by decide⟩

/-- Claim C5 (amended): for an `Included hi` upper bound, `rewind` seeks the
source to the encoded key `(hi, 0)`, clears all resolution state and primes
with exactly one `next` (the structural shape below); after the seek the
records ahead of the cursor are exactly those with user key `≤ hi`.  Since a
group is stored oldest-to-newest (epochs ascending in scan order), the first
internal key visited is the OLDEST version of `hi` present — not the newest,
as the spec says (see the counterexample).  For `Unbounded` the source is
rewound to the stream's maximum (cursor 0). -/
theorem c5_rewind_positions_source (s : ReverseUserKeyIterator) :
    (∀ hi, s.key_range.2 = KeyBound.Included hi →
      rewind s = some (next (reset { s with iterator := s.iterator.seek ⟨hi, 0⟩ })) ∧
      (sortedDesc s.iterator.entries →
        (s.iterator.seek ⟨hi, 0⟩).entries.drop (s.iterator.seek ⟨hi, 0⟩).pos =
          s.iterator.entries.filter (fun e => leBytes e.1.uk hi))) ∧
    (s.key_range.2 = KeyBound.Unbounded →
      rewind s = some (next (reset { s with iterator := s.iterator.rewind })) ∧
      (s.iterator.rewind).pos = 0) := by
  constructor
  · intro hi h
    constructor
    · unfold rewind
      rw [h]
    · intro hs
      show s.iterator.entries.drop
        (s.iterator.entries.findIdx (fun e => ikLe e.1 ⟨hi, 0⟩)) = _
      rw [drop_findIdx_eq_filter ⟨hi, 0⟩ s.iterator.entries hs]
      exact List.filter_congr (fun e _ => ikLe_target0 e.1 hi)
  · intro h
    refine ⟨?_, rfl⟩
    unfold rewind
    rw [h]

theorem c5_witness :
    rewind (mkIter [(⟨[5], 2⟩, HummockValue.Put [1]), (⟨[5], 7⟩, HummockValue.Put [2])]
        (KeyBound.Unbounded, KeyBound.Included [5]) 100) =
      some (next (reset { mkIter [(⟨[5], 2⟩, HummockValue.Put [1]), (⟨[5], 7⟩, HummockValue.Put [2])] (KeyBound.Unbounded, KeyBound.Included [5]) 100 with iterator := (mkIter [(⟨[5], 2⟩, HummockValue.Put [1]), (⟨[5], 7⟩, HummockValue.Put [2])] (KeyBound.Unbounded, KeyBound.Included [5]) 100).iterator.seek ⟨[5], 0⟩ })) :=
  ((c5_rewind_positions_source _).1 [5] rfl).1

theorem c5_counterexample :
    sortedDesc [((⟨[5], 2⟩ : IKey), HummockValue.Put [1]), (⟨[5], 7⟩, HummockValue.Put [2])] ∧
    ReverseSortedIterator.key (ReverseSortedIterator.seek
      (ReverseSortedIterator.new
        [(⟨[5], 2⟩, HummockValue.Put [1]), (⟨[5], 7⟩, HummockValue.Put [2])]) ⟨[5], 0⟩) =
      ⟨[5], 2⟩ ∧
    newestVisible [(⟨[5], 2⟩, HummockValue.Put [1]), (⟨[5], 7⟩, HummockValue.Put [2])]
      [5] 100 = some (⟨[5], 7⟩, HummockValue.Put [2]) ∧
    ((⟨[5], 2⟩ : IKey) ≠ ⟨[5], 7⟩) := by
  decide

/-- Claim C6: `seek(u)` under an `Included hi` upper bound clamps the target
to `min(u, hi)`, seeks the source to the encoded `(clamped, 0)`, resets the
resolution state and primes with exactly one `next` (the structural shape
below); every user key the run subsequently returns is `≤` the clamped
target, and the keys are strictly descending. -/
theorem c6_seek_clamped_descending (entries : List (IKey × HummockValue))
    (lo : KeyBound) (hi : List Nat) (re : Nat) (u : List Nat)
    (s₁ : ReverseUserKeyIterator) (fuel : Nat)
    (hs : sortedDesc entries)
    (hst : seek (mkIter entries (lo, KeyBound.Included hi) re) u = some s₁) :
    s₁ = next (reset { mkIter entries (lo, KeyBound.Included hi) re with iterator := (mkIter entries (lo, KeyBound.Included hi) re).iterator.seek ⟨if ltBytes hi u then hi else u, 0⟩ }) ∧
    List.Pairwise (fun a b => ltBytes b a = true) (runKeys fuel s₁) ∧
    (∀ x ∈ runKeys fuel s₁, leBytes x (if ltBytes hi u then hi else u) = true) := by
  have hst2 : scanStart (mkIter entries (lo, KeyBound.Included hi) re) (some u) = some s₁ := hst
  refine ⟨?_, scan_keys_desc entries (lo, KeyBound.Included hi) re (some u) s₁ fuel hs hst2,
    scan_keys_le entries (lo, KeyBound.Included hi) re (some u) s₁ fuel _ hs hst2 rfl⟩
  have hv : seek (mkIter entries (lo, KeyBound.Included hi) re) u =
      some (next (reset { mkIter entries (lo, KeyBound.Included hi) re with iterator := (mkIter entries (lo, KeyBound.Included hi) re).iterator.seek ⟨if ltBytes hi u then hi else u, 0⟩ })) := rfl
  rw [hv] at hst
  exact (Option.some.inj hst).symm

theorem c6_witness :
    ∃ s₁, seek (mkIter [(⟨[2], 1⟩, HummockValue.Put [5]), (⟨[1], 1⟩, HummockValue.Put [6])]
        (KeyBound.Unbounded, KeyBound.Included [9]) 5) [1] = some s₁ ∧
      List.Pairwise (fun a b => ltBytes b a = true) (runKeys 3 s₁) ∧
      (∀ x ∈ runKeys 3 s₁, leBytes x (if ltBytes [9] [1] then [9] else [1]) = true) := by
  refine ⟨_, rfl, ?_⟩
  have h := c6_seek_clamped_descending
    [(⟨[2], 1⟩, HummockValue.Put [5]), (⟨[1], 1⟩, HummockValue.Put [6])]
    KeyBound.Unbounded [9] 5 [1] _ 3 (by decide) rfl
  exact ⟨h.2.1, h.2.2⟩

end Hummock
